import Mathlib

/-!
Verification of the streaming-response and metadata-cache core of the
Marketing Cortex web client.

The development shallowly embeds the two components the specification
singles out:

* the SSE stream consumer (`streamAgentResponse` in
  `frontend/src/services/api.ts` together with the `useSSE` hook in
  `frontend/src/hooks/useSSE.ts`), and
* the blog-source metadata cache (`loadFromCache`, `saveToCache`,
  `fetchBlogSources`, `invalidateCache` in
  `frontend/src/contexts/BlogDataContext.tsx`).

Strings are modelled as `List Char`.  Network chunks are modelled after
text decoding (`TextDecoder.decode(value, stream:true)` reassembles
split UTF-8 sequences, so chunk boundaries act on the character
sequence).  The host's `JSON.parse` / `JSON.stringify` pair is modelled
by an executable parser and printer over a `Json` value type; numeric
literals are restricted to integers because no value framed by this
protocol carries a fractional number and IEEE doubles are out of scope.
-/

namespace ZocketCortex

/-- JSON values as produced by the host's `JSON.parse`.  Object fields
keep insertion order, duplicate keys having been collapsed (last value
wins) by the parser, as in JavaScript. -/
inductive Json where
  | null : Json
  | bool (b : Bool) : Json
  | num (n : Int) : Json
  | str (s : List Char) : Json
  | arr (xs : List Json) : Json
  | obj (fields : List (List Char × Json)) : Json

/-- The opening-brace character, `\x7b`. -/
def lbrace : Char := Char.ofNat 123

/-- The closing-brace character, `\x7d`. -/
def rbrace : Char := Char.ofNat 125

/-- The opening-bracket character. -/
def lbrack : Char := Char.ofNat 91

/-- The closing-bracket character. -/
def rbrack : Char := Char.ofNat 93

/-- The double-quote character. -/
def quoteCh : Char := Char.ofNat 34

/-- The backslash character. -/
def backslashCh : Char := Char.ofNat 92

/-- JavaScript truthiness of a value. -/
def jsTruthy : Json → Bool
  | .null => false
  | .bool b => b
  | .num n => n != 0
  | .str s => !s.isEmpty
  | .arr _ => true
  | .obj _ => true

/-- Truthiness of a possibly absent property (`undefined` is falsy). -/
def jsTruthyOpt : Option Json → Bool
  | none => false
  | some v => jsTruthy v

/-- First-match association lookup on object fields. -/
def lookupField : List (List Char × Json) → List Char → Option Json
  | [], _ => none
  | (k, v) :: fs, key => if k = key then some v else lookupField fs key

/-- JavaScript property access `o.key`: `none` models `undefined`
(non-objects have no string-keyed own properties of interest here). -/
def getField (j : Json) (key : List Char) : Option Json :=
  match j with
  | .obj fs => lookupField fs key
  | _ => none

/-- `a || b` on a possibly absent left operand, as in
`response.sources || []`: the left value if present and truthy,
otherwise the right value. -/
def jsOrOpt (a : Option Json) (b : Json) : Json :=
  match a with
  | some v => if jsTruthy v then v else b
  | none => b

/-- Ordered-map update: an existing key keeps its position and takes
the new value, a new key is appended.  This is JavaScript property
assignment order. -/
def upsert : List (List Char × Json) → List Char → Json → List (List Char × Json)
  | [], k, v => [(k, v)]
  | (k0, v0) :: fs, k, v =>
    if k0 = k then (k0, v) :: fs else (k0, v0) :: upsert fs k v

/-- Object-literal spread `\x7b ...base, ...fs \x7d` semantics: fold the
source fields into the base with `upsert`. -/
def spreadInto (base : List (List Char × Json)) : List (List Char × Json) → List (List Char × Json)
  | [] => base
  | (k, v) :: fs => spreadInto (upsert base k v) fs

/-- Membership test on object keys. -/
def hasKey : List (List Char × Json) → List Char → Bool
  | [], _ => false
  | (k, _) :: fs, key => k = key || hasKey fs key

/-- Keys of a field list are pairwise distinct. -/
def nodupKeys : List (List Char × Json) → Bool
  | [] => true
  | (k, _) :: fs => !hasKey fs k && nodupKeys fs

mutual

/-- Well-formed JSON value: every object, at any depth, has pairwise
distinct keys.  `JSON.parse` only produces such values. -/
def wfJson : Json → Bool
  | .null => true
  | .bool _ => true
  | .num _ => true
  | .str _ => true
  | .arr xs => wfArr xs
  | .obj fs => nodupKeys fs && wfObj fs

/-- `wfJson` on every element. -/
def wfArr : List Json → Bool
  | [] => true
  | x :: xs => wfJson x && wfArr xs

/-- `wfJson` on every field value. -/
def wfObj : List (List Char × Json) → Bool
  | [] => true
  | (_, v) :: fs => wfJson v && wfObj fs

end

/-- JavaScript line terminators: the characters the regexp atom `.`
does not match (`\n`, `\r`, U+2028, U+2029). -/
def isLineTerm (c : Char) : Bool :=
  c = Char.ofNat 10 || c = Char.ofNat 13 || c = Char.ofNat 8232 || c = Char.ofNat 8233

/-- The two line terminators `JSON.stringify` does NOT escape
(U+2028, U+2029); newline and carriage return are always escaped. -/
def isU28 (c : Char) : Bool := c = Char.ofNat 8232 || c = Char.ofNat 8233

mutual

/-- No string value or key anywhere in the value contains U+2028 or
U+2029, the only characters that survive `JSON.stringify` yet are
rejected by the regexp dot atom. -/
def jsonNoU28 : Json → Bool
  | .null => true
  | .bool _ => true
  | .num _ => true
  | .str s => !s.any isU28
  | .arr xs => arrNoU28 xs
  | .obj fs => objNoU28 fs

/-- `jsonNoU28` on every element. -/
def arrNoU28 : List Json → Bool
  | [] => true
  | x :: xs => jsonNoU28 x && arrNoU28 xs

/-- `jsonNoU28` on every key and field value. -/
def objNoU28 : List (List Char × Json) → Bool
  | [] => true
  | (k, v) :: fs => !k.any isU28 && jsonNoU28 v && objNoU28 fs

end

/-- Decimal digit character for `n < 10`. -/
def digitChar (n : Nat) : Char := Char.ofNat (48 + n)

/-- Most-significant-first decimal digits, fuel-driven
(`fuel > n` suffices). -/
def natDigitsAux : Nat → Nat → List Char → List Char
  | 0, _, acc => acc
  | fuel + 1, n, acc =>
    if n < 10 then digitChar n :: acc
    else natDigitsAux fuel (n / 10) (digitChar (n % 10) :: acc)

/-- Decimal representation of a natural number. -/
def natDigits (n : Nat) : List Char := natDigitsAux (n + 1) n []

/-- Decimal representation of an integer, as `String(n)` renders it. -/
def intDigits : Int → List Char
  | .ofNat n => natDigits n
  | .negSucc m => '-' :: natDigits (m + 1)

/-- Lowercase hexadecimal digit character for `n < 16`. -/
def hexDigitChar (n : Nat) : Char :=
  if n < 10 then Char.ofNat (48 + n) else Char.ofNat (87 + n)

/-- How `JSON.stringify` renders one character inside a string literal:
quote, backslash and control characters are escaped, everything else is
emitted verbatim. -/
def escapeChar (c : Char) : List Char :=
  if c = quoteCh then [backslashCh, quoteCh]
  else if c = backslashCh then [backslashCh, backslashCh]
  else if c = Char.ofNat 10 then [backslashCh, 'n']
  else if c = Char.ofNat 13 then [backslashCh, 'r']
  else if c = Char.ofNat 9 then [backslashCh, 't']
  else if c = Char.ofNat 8 then [backslashCh, 'b']
  else if c = Char.ofNat 12 then [backslashCh, 'f']
  else if c.toNat < 32 then
    [backslashCh, 'u', '0', '0', hexDigitChar (c.toNat / 16), hexDigitChar (c.toNat % 16)]
  else [c]

/-- String-literal body as `JSON.stringify` renders it. -/
def escString (s : List Char) : List Char := (s.map escapeChar).flatten

mutual

/-- The host's `JSON.stringify` on the modelled value type. -/
def stringify : Json → List Char
  | .null => "null".toList
  | .bool true => "true".toList
  | .bool false => "false".toList
  | .num n => intDigits n
  | .str s => quoteCh :: escString s ++ [quoteCh]
  | .arr xs => lbrack :: stringifyElems xs ++ [rbrack]
  | .obj fs => lbrace :: stringifyFields fs ++ [rbrace]

/-- Comma-separated array elements. -/
def stringifyElems : List Json → List Char
  | [] => []
  | [x] => stringify x
  | x :: y :: xs => stringify x ++ ',' :: stringifyElems (y :: xs)

/-- Comma-separated `"key":value` fields. -/
def stringifyFields : List (List Char × Json) → List Char
  | [] => []
  | [(k, v)] => quoteCh :: escString k ++ quoteCh :: ':' :: stringify v
  | (k, v) :: f :: fs =>
    (quoteCh :: escString k ++ quoteCh :: ':' :: stringify v) ++ ',' :: stringifyFields (f :: fs)

end

mutual

/-- JavaScript string coercion `String(v)`, used where a value flows
into string positions (template literals, `prev + chunk`).  Arrays join
their coerced elements with commas, `null` elements rendering empty;
plain objects render as `[object Object]`. -/
def jsToString : Json → List Char
  | .null => "null".toList
  | .bool true => "true".toList
  | .bool false => "false".toList
  | .num n => intDigits n
  | .str s => s
  | .arr xs => arrToString xs
  | .obj _ => "[object Object]".toList

def arrToString : List Json → List Char
  | [] => []
  | [Json.null] => []
  | [x] => jsToString x
  | Json.null :: y :: xs => ',' :: arrToString (y :: xs)
  | x :: y :: xs => jsToString x ++ ',' :: arrToString (y :: xs)

end

/-- `String(v)` of a possibly absent value (`undefined` coerces to the
text `undefined`). -/
def jsToStringOpt : Option Json → List Char
  | none => "undefined".toList
  | some v => jsToString v

/-- JSON insignificant whitespace. -/
def isWs (c : Char) : Bool :=
  c = Char.ofNat 32 || c = Char.ofNat 9 || c = Char.ofNat 10 || c = Char.ofNat 13

/-- Drop leading JSON whitespace. -/
def skipWs : List Char → List Char
  | [] => []
  | c :: cs => if isWs c then skipWs cs else c :: cs

/-- Value of a hexadecimal digit character. -/
def hexVal (c : Char) : Option Nat :=
  if 48 ≤ c.toNat ∧ c.toNat ≤ 57 then some (c.toNat - 48)
  else if 97 ≤ c.toNat ∧ c.toNat ≤ 102 then some (c.toNat - 87)
  else if 65 ≤ c.toNat ∧ c.toNat ≤ 70 then some (c.toNat - 55)
  else none

/-- Single-character escape codes accepted after a backslash inside a
JSON string literal (besides `u`). -/
def escCode (e : Char) : Option Char :=
  if e = quoteCh then some quoteCh
  else if e = backslashCh then some backslashCh
  else if e = '/' then some '/'
  else if e = 'n' then some (Char.ofNat 10)
  else if e = 'r' then some (Char.ofNat 13)
  else if e = 't' then some (Char.ofNat 9)
  else if e = 'b' then some (Char.ofNat 8)
  else if e = 'f' then some (Char.ofNat 12)
  else none

/-- Prepend a decoded character to the result of parsing the rest of a
string literal. -/
def consChar (d : Char) (r : Option (List Char × List Char)) : Option (List Char × List Char) :=
  match r with
  | some p => some (d :: p.1, p.2)
  | none => none

mutual

/-- Parse the body of a string literal (the opening quote already
consumed), returning the decoded characters and the input after the
closing quote.  Surrogate-pair recombination of `\uXXXX` escapes is not
modelled; no value framed by this protocol uses astral escapes. -/
def parseStringBody : List Char → Option (List Char × List Char)
  | [] => none
  | c :: cs =>
    if c = quoteCh then some ([], cs)
    else if c = backslashCh then parseEsc cs
    else if c.toNat < 32 then none
    else consChar c (parseStringBody cs)

/-- Parse what follows a backslash inside a string literal. -/
def parseEsc : List Char → Option (List Char × List Char)
  | [] => none
  | e :: cs2 =>
    match escCode e with
    | some d => consChar d (parseStringBody cs2)
    | none => if e = 'u' then parseHexEsc cs2 else none

/-- Parse the four hex digits of a `\uXXXX` escape. -/
def parseHexEsc : List Char → Option (List Char × List Char)
  | h1 :: h2 :: h3 :: h4 :: cs3 =>
    match hexVal h1, hexVal h2, hexVal h3, hexVal h4 with
    | some a, some b, some c2, some d2 =>
      consChar (Char.ofNat (((a * 16 + b) * 16 + c2) * 16 + d2)) (parseStringBody cs3)
    | _, _, _, _ => none
  | _ => none

end

/-- Decimal digit test. -/
def isDigitCh (c : Char) : Bool := 48 ≤ c.toNat && c.toNat ≤ 57

/-- Consume a maximal run of decimal digits, folding them onto `acc`. -/
def parseDigitsAux : List Char → Nat → Nat × List Char
  | [], acc => (acc, [])
  | c :: cs, acc =>
    if isDigitCh c then parseDigitsAux cs (acc * 10 + (c.toNat - 48))
    else (acc, c :: cs)

/-- Parse an unsigned integer literal: at least one digit, maximal
run. -/
def parseNatNum : List Char → Option (Nat × List Char)
  | [] => none
  | d :: cs => if isDigitCh d then some (parseDigitsAux (d :: cs) 0) else none

/-- Parse an integer literal: an optional minus sign and at least one
digit.  Fractions, exponents and the leading-zero restriction of full
JSON are not modelled (no framed value uses them). -/
def parseNumber : List Char → Option (Int × List Char)
  | [] => none
  | c :: cs =>
    if c = '-' then
      match parseNatNum cs with
      | some p => some (-(p.1 : Int), p.2)
      | none => none
    else
      match parseNatNum (c :: cs) with
      | some p => some ((p.1 : Int), p.2)
      | none => none

/-- Collapse duplicate keys the way JavaScript object construction
does: fields are assigned in order, a repeated key keeping its first
position and taking its last value. -/
def dedupFields (fs : List (List Char × Json)) : List (List Char × Json) :=
  spreadInto [] fs

mutual

/-- Parse one JSON value; the fuel bounds recursion depth and
`input length + 1` is always sufficient. -/
def parseValue : Nat → List Char → Option (Json × List Char)
  | 0, _ => none
  | fuel + 1, cs =>
    match skipWs cs with
    | [] => none
    | c :: rest =>
      if c = quoteCh then
        match parseStringBody rest with
        | some (s, r) => some (Json.str s, r)
        | none => none
      else if c = lbrace then
        match skipWs rest with
        | [] => none
        | d :: rest2 =>
          if d = rbrace then some (Json.obj [], rest2)
          else
            match parseMembers fuel (d :: rest2) with
            | some (fs, r) => some (Json.obj (dedupFields fs), r)
            | none => none
      else if c = lbrack then
        match skipWs rest with
        | [] => none
        | d :: rest2 =>
          if d = rbrack then some (Json.arr [], rest2)
          else
            match parseElems fuel (d :: rest2) with
            | some (xs, r) => some (Json.arr xs, r)
            | none => none
      else if c = 't' then
        match rest with
        | 'r' :: 'u' :: 'e' :: r => some (Json.bool true, r)
        | _ => none
      else if c = 'f' then
        match rest with
        | 'a' :: 'l' :: 's' :: 'e' :: r => some (Json.bool false, r)
        | _ => none
      else if c = 'n' then
        match rest with
        | 'u' :: 'l' :: 'l' :: r => some (Json.null, r)
        | _ => none
      else
        match parseNumber (c :: rest) with
        | some (n, r) => some (Json.num n, r)
        | none => none

/-- Parse the elements of a non-empty array, up to and including the
closing bracket. -/
def parseElems : Nat → List Char → Option (List Json × List Char)
  | 0, _ => none
  | fuel + 1, cs =>
    match parseValue fuel cs with
    | none => none
    | some (v, r) =>
      match skipWs r with
      | [] => none
      | d :: r2 =>
        if d = ',' then
          match parseElems fuel r2 with
          | some (xs, r3) => some (v :: xs, r3)
          | none => none
        else if d = rbrack then some ([v], r2)
        else none

/-- Parse the members of a non-empty object, up to and including the
closing brace. -/
def parseMembers : Nat → List Char → Option (List (List Char × Json) × List Char)
  | 0, _ => none
  | fuel + 1, cs =>
    match cs with
    | [] => none
    | c :: rest =>
      if c = quoteCh then
        match parseStringBody rest with
        | none => none
        | some (k, r) =>
          match skipWs r with
          | [] => none
          | d :: r2 =>
            if d = ':' then
              match parseValue fuel r2 with
              | none => none
              | some (v, r3) =>
                match skipWs r3 with
                | [] => none
                | e :: r4 =>
                  if e = ',' then
                    match parseMembers fuel (skipWs r4) with
                    | some (fs, r5) => some ((k, v) :: fs, r5)
                    | none => none
                  else if e = rbrace then some ([(k, v)], r4)
                  else none
            else none
      else none

end

/-- The host's `JSON.parse`: parse one value and demand that only
whitespace remains; `none` models a thrown `SyntaxError`. -/
def jsonParse (s : List Char) : Option Json :=
  match parseValue (s.length + 1) s with
  | some (v, r) => if (skipWs r).isEmpty then some v else none
  | none => none

/-! ## Stream consumer (`streamAgentResponse`, `frontend/src/services/api.ts`) -/

/-- The newline character separating wire frames. -/
def nlCh : Char := Char.ofNat 10

/-- The frame tag `data: ` (with its trailing space). -/
def dataTag : List Char := "data: ".toList

/-- The `type` discriminator key. -/
def typeKey : List Char := "type".toList

/-- The `content` key of token frames. -/
def contentKey : List Char := "content".toList

/-- The `error` key of error frames. -/
def errorKey : List Char := "error".toList

/-- The `token` discriminator value. -/
def tokenK : List Char := "token".toList

/-- The `error` discriminator value. -/
def errorK : List Char := "error".toList

/-- The `done` discriminator value. -/
def doneK : List Char := "done".toList

/-- The six tool-event discriminator values recognized by
`streamAgentResponse`. -/
def sixKinds : List (List Char) :=
  ["tool_call_start".toList, "tool_call_result".toList, "query_refinement".toList,
   "synthesis_start".toList, "query_analysis".toList, "evaluation".toList]

/-- The internal marker prepended to tool events passed to `onChunk`. -/
def eventTag : List Char := "[EVENT:".toList

/-- Every discriminator value the dispatch chain recognizes. -/
def recognizedKinds : List (List Char) := tokenK :: errorK :: doneK :: sixKinds

/-- Fallback error text of `data.error || data.content || 'Unknown error'`. -/
def unknownErrorMsg : List Char := "Unknown error".toList

/-- `data.type === t` for a string `t`: strict equality holds exactly
when the property is present and is that string. -/
def typeIs (d : Json) (t : List Char) : Bool :=
  match getField d typeKey with
  | some (Json.str s) => s = t
  | _ => false

/-- One callback invocation surfaced by `streamAgentResponse`:
`onChunk`, `onError`, or `onComplete`. -/
inductive CB where
  | chunk (s : List Char) : CB
  | errorC (msg : List Char) : CB
  | complete : CB
deriving DecidableEq, Repr

/-- Terminal callbacks (`onError` / `onComplete`). -/
def isTerminalCB : CB → Bool
  | .chunk _ => false
  | .errorC _ => true
  | .complete => true

/-- Concatenation of all `onChunk` payloads, the accumulated text view
of a callback sequence. -/
def textOf : List CB → List Char
  | [] => []
  | .chunk s :: r => s ++ textOf r
  | .errorC _ :: r => textOf r
  | .complete :: r => textOf r

/-- Effect of one parsed frame object on the consumer, following the
dispatch chain of `streamAgentResponse` (token, then error, then done,
then the six tool kinds; anything else falls through). -/
inductive LineResult where
  | ignore : LineResult
  | emit (c : CB) : LineResult
  | terminal (c : CB) : LineResult
deriving DecidableEq, Repr

/-- Dispatch on a successfully parsed frame object. -/
def processParsed (data : Json) : LineResult :=
  if typeIs data tokenK && jsTruthyOpt (getField data contentKey) then
    .emit (.chunk (jsToStringOpt (getField data contentKey)))
  else if typeIs data errorK then
    .terminal (.errorC (jsToString
      (jsOrOpt (getField data errorKey)
        (jsOrOpt (getField data contentKey) (Json.str unknownErrorMsg)))))
  else if typeIs data doneK then
    .terminal .complete
  else if sixKinds.any (fun k => typeIs data k) then
    .emit (.chunk (eventTag ++ jsToStringOpt (getField data typeKey) ++ rbrack :: stringify data))
  else .ignore

/-- Process one complete line of the body: lines without the `data: `
tag and lines whose payload fails `JSON.parse` are silently discarded. -/
def processLine (ln : List Char) : LineResult :=
  if dataTag.isPrefixOf ln then
    match jsonParse (ln.drop 6) with
    | none => .ignore
    | some data => processParsed data
  else .ignore

/-- `buffer.split('\n')` followed by `buffer = lines.pop() || ''`: the
complete (newline-terminated) lines and the carried-over remainder. -/
def splitNl : List Char → List (List Char) × List Char
  | [] => ([], [])
  | c :: cs =>
    let p := splitNl cs
    if c = nlCh then (([] : List Char) :: p.1, p.2)
    else
      match p.1 with
      | [] => ([], c :: p.2)
      | l :: ls => ((c :: l) :: ls, p.2)

/-- Process the complete lines of one read, stopping at the first
terminal frame (the source `return`s out of the whole function). -/
def processLines : List (List Char) → List CB × Bool
  | [] => ([], false)
  | l :: ls =>
    match processLine l with
    | .ignore => processLines ls
    | .emit c =>
      let p := processLines ls
      (c :: p.1, p.2)
    | .terminal c => ([c], true)

/-- The read loop of `streamAgentResponse`: prepend the carry buffer to
each arriving chunk, parse the complete lines, and carry the trailing
remainder forward; the Bool records whether a terminal frame ended the
loop early. -/
def runChunksAux : List Char → List (List Char) → List CB × Bool
  | _, [] => ([], false)
  | buf, c :: cs =>
    let p := splitNl (buf ++ c)
    let q := processLines p.1
    if q.2 then (q.1, true)
    else
      let r := runChunksAux p.2 cs
      (q.1 ++ r.1, r.2)

/-- Callback sequence produced by `streamAgentResponse` for a given
sequence of decoded network chunks: when the reader drains without a
terminal frame, the end of stream surfaces `onComplete` (any trailing
unterminated data is discarded). -/
def streamAgentResponse (chunks : List (List Char)) : List CB :=
  let p := runChunksAux [] chunks
  if p.2 then p.1 else p.1 ++ [CB.complete]

/-! ## Consumer state (`useSSE`, `frontend/src/hooks/useSSE.ts`) -/

/-- The state exposed by the `useSSE` hook, plus whether an abort
controller for an in-flight request exists. -/
structure HookState where
  message : List Char
  isStreaming : Bool
  error : Option (List Char)
  toolCalls : List Json
  hasController : Bool

/-- The hook state as initialised (`''`, `false`, `null`, `[]`, no
controller). -/
def initHookState : HookState :=
  { message := [], isStreaming := false, error := none, toolCalls := [], hasController := false }

/-- The match of `^\[EVENT:([^\]]+)\](.+)$` against a chunk: the kind
is everything before the first closing bracket (which must be nonempty
and followed by the bracket), and the payload is the nonempty remainder,
which the dot atom forbids from containing line terminators. -/
def eventMatch (s : List Char) : Option (List Char × List Char) :=
  if eventTag.isPrefixOf s then
    let s1 := s.drop 7
    let t := s1.takeWhile (fun c => c != rbrack)
    match s1.drop t.length with
    | [] => none
    | _ :: rest =>
      if t.isEmpty || rest.isEmpty || rest.any isLineTerm then none
      else some (t, rest)
  else none

/-- The object literal `\x7b type: eventType, ...eventData \x7d`.
Spreading a non-object contributes no fields (string and array spreads
would contribute index keys, which this protocol never produces: the
payload is always a stringified object). -/
def mkToolCall (t : List Char) (d : Json) : List (List Char × Json) :=
  match d with
  | .obj fs => spreadInto [(typeKey, Json.str t)] fs
  | _ => [(typeKey, Json.str t)]

/-- The `onChunk` handler installed by `sendMessage`: chunks starting
with the event marker are parsed and appended to the tool-call log
(silently dropped if the marker regexp or `JSON.parse` fails), anything
else is appended to the message buffer. -/
def handleChunk (st : HookState) (chunk : List Char) : HookState :=
  if eventTag.isPrefixOf chunk then
    match eventMatch chunk with
    | some p =>
      match jsonParse p.2 with
      | some d => { st with toolCalls := st.toolCalls ++ [Json.obj (mkToolCall p.1 d)] }
      | none => st
    | none => st
  else { st with message := st.message ++ chunk }

/-- Apply the callbacks surfaced by the stream, in order, to the hook
state: `onComplete` clears the streaming flag and the controller,
`onError` additionally records the message. -/
def runCallbacks (st : HookState) : List CB → HookState
  | [] => st
  | .chunk s :: r => runCallbacks (handleChunk st s) r
  | .errorC m :: r =>
    runCallbacks { st with error := some m, isStreaming := false, hasController := false } r
  | .complete :: r =>
    runCallbacks { st with isStreaming := false, hasController := false } r

/-- The primitive steps `sendMessage` performs synchronously, in
program order. -/
inductive HookAction where
  | abortReq : HookAction
  | resetMessage : HookAction
  | resetError : HookAction
  | resetToolCalls : HookAction
  | setStreamingTrue : HookAction
  | newController : HookAction
  | openRequest : HookAction
deriving DecidableEq, Repr

/-- The synchronous body of `useSSE.sendMessage`: abort any existing
request, reset all four state cells, install a fresh controller, and
invoke `streamAgentResponse` exactly once. -/
def sendMessage (st : HookState) : List HookAction :=
  (if st.hasController then [HookAction.abortReq] else []) ++
  [HookAction.resetMessage, HookAction.resetError, HookAction.resetToolCalls,
   HookAction.setStreamingTrue, HookAction.newController, HookAction.openRequest]

/-- State effect of one `sendMessage` step (aborting and opening touch
the transport, not the state cells). -/
def applyAction (st : HookState) : HookAction → HookState
  | .abortReq => st
  | .resetMessage => { st with message := [] }
  | .resetError => { st with error := none }
  | .resetToolCalls => { st with toolCalls := [] }
  | .setStreamingTrue => { st with isStreaming := true }
  | .newController => { st with hasController := true }
  | .openRequest => st

/-- Run a list of `sendMessage` steps. -/
def runActions (st : HookState) (as : List HookAction) : HookState :=
  as.foldl applyAction st

/-! ## Wire frames used in the statements -/

/-- One wire line (without its newline) framing the given object. -/
def frameLineOf (j : Json) : List Char := dataTag ++ stringify j

/-- The wire line of a token frame with the given content. -/
def tokenLine (s : List Char) : List Char :=
  frameLineOf (Json.obj [(typeKey, Json.str tokenK), (contentKey, Json.str s)])

/-- A complete (newline-terminated) token frame. -/
def tokenFrame (s : List Char) : List Char := tokenLine s ++ [nlCh]

/-- The wire line of a tool-event frame of kind `k` with payload
fields `fs`. -/
def toolLine (k : List Char) (fs : List (List Char × Json)) : List Char :=
  frameLineOf (Json.obj ((typeKey, Json.str k) :: fs))

/-- Join newline-terminated lines into one raw stream. -/
def mkStream (lines : List (List Char)) : List Char :=
  (lines.map (fun l => l ++ [nlCh])).flatten

/-- A non-terminal wire frame, as the backend emits them: a token
carrying text, or a tool event of kind `k` with payload fields `fs`
(the `type` field itself excluded). -/
inductive SpecFrame where
  | tok (s : List Char) : SpecFrame
  | tool (k : List Char) (fs : List (List Char × Json)) : SpecFrame

/-- The wire line of a frame. -/
def specLine : SpecFrame → List Char
  | .tok s => tokenLine s
  | .tool k fs => toolLine k fs

/-- Conditions under which a frame is routed as intended: a token
content must not begin with the internal event marker, and a tool
payload must be a well-formed object, without its own `type` field and
with strings free of U+2028/U+2029. -/
def frameOk : SpecFrame → Prop
  | .tok s => eventTag.isPrefixOf s = false
  | .tool k fs =>
    k ∈ sixKinds ∧ hasKey fs typeKey = false ∧ nodupKeys fs = true ∧
    wfObj fs = true ∧ objNoU28 fs = true

/-- Concatenation of the token contents of a frame list. -/
def tokText : List SpecFrame → List Char
  | [] => []
  | .tok s :: r => s ++ tokText r
  | .tool _ _ :: r => tokText r

/-- The tool-call objects a frame list should contribute, in order. -/
def toolObjs : List SpecFrame → List Json
  | [] => []
  | .tok _ :: r => toolObjs r
  | .tool k fs :: r => Json.obj ((typeKey, Json.str k) :: fs) :: toolObjs r

mutual

/-- Weight measure bounding the parser fuel a printed value needs. -/
def jweight : Json → Nat
  | .null => 1
  | .bool _ => 1
  | .num _ => 1
  | .str _ => 1
  | .arr xs => wArr xs + 1
  | .obj fs => wObj fs + 1

def wArr : List Json → Nat
  | [] => 0
  | x :: xs => jweight x + wArr xs + 1

def wObj : List (List Char × Json) → Nat
  | [] => 0
  | (_, v) :: fs => jweight v + wObj fs + 1

end

/-- Head of a character list is not a decimal digit (trivially true of
the empty list); the follow-set condition for number parsing. -/
def noDigitHead : List Char → Prop
  | [] => True
  | c :: _ => isDigitCh c = false

/-! ## Local metadata cache (`frontend/src/contexts/BlogDataContext.tsx`) -/

/-- The durable store under the fixed cache key, together with the
failure behaviour of its three operations (a `true` flag makes the
operation throw, modelling quota or access errors). -/
structure Storage where
  contents : Option (List Char)
  getThrows : Bool
  setThrows : Bool
  removeThrows : Bool
deriving DecidableEq, Repr

/-- A working, empty store. -/
def emptyStorage : Storage :=
  { contents := none, getThrows := false, setThrows := false, removeThrows := false }

/-- `CACHE_TTL`: the 5-minute freshness window, in milliseconds. -/
def CACHE_TTL : Int := 5 * 60 * 1000

/-- The `data` key of a cache entry. -/
def dataKey : List Char := "data".toList

/-- The `timestamp` key of a cache entry. -/
def timestampKey : List Char := "timestamp".toList

/-- The `sources` key of the metadata-list response body. -/
def sourcesKey : List Char := "sources".toList

/-- The JSON blob written for a cache entry. -/
def entryJson (data : Json) (timestamp : Int) : Json :=
  Json.obj [(dataKey, data), (timestampKey, Json.num timestamp)]

/-- `loadFromCache`: read the raw entry (a thrown storage error is
caught and degrades to a miss, as does an absent or empty raw string or
a `JSON.parse` failure), and return its data only while
`now - entry.timestamp < CACHE_TTL`.  A non-numeric timestamp makes the
age comparison false in JavaScript (`NaN`), hence a miss. -/
def loadFromCache (s : Storage) (now : Int) : Option Json :=
  if s.getThrows then none
  else
    match s.contents with
    | none => none
    | some raw =>
      if raw.isEmpty then none
      else
        match jsonParse raw with
        | none => none
        | some entry =>
          match getField entry timestampKey with
          | some (Json.num t) =>
            if now - t < CACHE_TTL then getField entry dataKey else none
          | _ => none

/-- `saveToCache`: overwrite the entry with the data and the current
time; a thrown storage error is caught and swallowed. -/
def saveToCache (s : Storage) (data : Json) (now : Int) : Storage :=
  if s.setThrows then s
  else { s with contents := some (stringify (entryJson data now)) }

/-- `localStorage.removeItem` under the catch of `invalidateCache`. -/
def removeItem (s : Storage) : Storage :=
  if s.removeThrows then s else { s with contents := none }

/-- Provider component state: the served sources value, the loading and
error cells, the last successful fetch time, the `isFetchingRef` flag,
and the durable store. -/
structure CompState where
  sources : Json
  loading : Bool
  error : Option (List Char)
  lastFetched : Option Int
  isFetching : Bool
  storage : Storage

/-- Provider state as first mounted (`[]`, `true`, `null`, `null`,
not fetching) over the given store. -/
def initCompState (s : Storage) : CompState :=
  { sources := Json.arr [], loading := true, error := none, lastFetched := none,
    isFetching := false, storage := s }

/-- Outcome and observation time of one `getBlogSources()` network
call: either the parsed response body or a failure message.  One `now`
models the `Date.now()` reads made during the call. -/
structure NetCtx where
  result : Except (List Char) Json
  now : Int

/-- The synchronous prefix of `fetchBlogSources`, up to the `await` of
the network call: the in-flight guard (bypassed under `forceRefresh`),
then the cache fast path (skipped under `forceRefresh`), then the state
updates made just before issuing the fetch.  The Bool records whether
the network call is issued. -/
def fetchPhaseA (forceRefresh : Bool) (now : Int) (st : CompState) : CompState × Bool :=
  if st.isFetching && !forceRefresh then (st, false)
  else
    if !forceRefresh && jsTruthyOpt (loadFromCache st.storage now) then
      match loadFromCache st.storage now with
      | some cached => ({ st with sources := cached, loading := false, error := none }, false)
      | none => (st, false)
    else ({ st with isFetching := true, loading := true, error := none }, true)

/-- The continuation of `fetchBlogSources` after the network call
resolves: on success store `response.sources || []` and overwrite the
cache entry; on failure record the message and fall back to whatever
`loadFromCache` still returns; the `finally` block clears the loading
and in-flight flags. -/
def fetchPhaseB (ctx : NetCtx) (st : CompState) : CompState :=
  match ctx.result with
  | .ok response =>
    let sourcesData := jsOrOpt (getField response sourcesKey) (Json.arr [])
    { st with
        sources := sourcesData
        lastFetched := some ctx.now
        storage := saveToCache st.storage sourcesData ctx.now
        loading := false
        isFetching := false }
  | .error msg =>
    let st2 := { st with error := some msg }
    let st3 :=
      match loadFromCache st2.storage ctx.now with
      | some cached => if jsTruthy cached then { st2 with sources := cached } else st2
      | none => st2
    { st3 with loading := false, isFetching := false }

/-- One complete, uninterleaved `fetchBlogSources(force)` call; the
second component counts network calls issued. -/
def fetchBlogSources (forceRefresh : Bool) (ctx : NetCtx) (st : CompState) : CompState × Nat :=
  let p := fetchPhaseA forceRefresh ctx.now st
  if p.2 then (fetchPhaseB ctx p.1, 1) else (p.1, 0)

/-- `invalidateCache`: delete the entry (errors swallowed), then a
forced `fetchBlogSources(true)`, run here to completion. -/
def invalidateCache (ctx : NetCtx) (st : CompState) : CompState × Nat :=
  fetchBlogSources true ctx { st with storage := removeItem st.storage }

/-- The synchronous prefix of `invalidateCache`: the entry deletion and
the forced fetch up to its `await`. -/
def invalidatePhaseA (now : Int) (st : CompState) : CompState × Bool :=
  fetchPhaseA true now { st with storage := removeItem st.storage }

/-- Two `invalidateCache()` calls in immediate succession: the second
runs its synchronous prefix while the first's fetch is still in flight;
both responses then resolve in order.  Returns the final state and the
total number of network calls issued. -/
def doubleInvalidate (ctx1 ctx2 : NetCtx) (st : CompState) : CompState × Nat :=
  let p1 := invalidatePhaseA ctx1.now st
  let p2 := invalidatePhaseA ctx2.now p1.1
  let st3 := if p1.2 then fetchPhaseB ctx1 p2.1 else p2.1
  let st4 := if p2.2 then fetchPhaseB ctx2 st3 else st3
  (st4, (if p1.2 then 1 else 0) + (if p2.2 then 1 else 0))

/-- The caller-observable part of a fetch outcome: everything except
the durable store itself. -/
def nonStorageView (r : CompState × Nat) :
    Json × Bool × Option (List Char) × Option Int × Bool × Nat :=
  (r.1.sources, r.1.loading, r.1.error, r.1.lastFetched, r.1.isFetching, r.2)

/-- A concrete metadata list, for instantiating the statements. -/
def demoData : Json := Json.arr [Json.num 7]

/-- A working store holding an entry with `demoData` written at time 0. -/
def demoStore : Storage :=
  { contents := some (stringify (entryJson demoData 0)),
    getThrows := false, setThrows := false, removeThrows := false }

/-- A store whose reads throw (quota/security errors in `localStorage`). -/
def throwingStore : Storage :=
  { contents := none, getThrows := true, setThrows := false, removeThrows := false }

/-! ## Decimal and hexadecimal digit facts -/

theorem isDigitCh_digitChar : ∀ d, d < 10 → isDigitCh (digitChar d) = true := by decide

theorem digitChar_val : ∀ d, d < 10 → (digitChar d).toNat - 48 = d := by decide

theorem digitChar_ne_dash : ∀ d, d < 10 → digitChar d ≠ '-' := by decide

theorem isWs_digitChar : ∀ d, d < 10 → isWs (digitChar d) = false := by decide

theorem hexVal_hexDigitChar : ∀ n, n < 16 → hexVal (hexDigitChar n) = some n := by decide

theorem natDigitsAux_acc (fuel : Nat) :
    ∀ n acc, natDigitsAux fuel n acc = natDigitsAux fuel n [] ++ acc := by
  induction fuel with
  | zero => intro n acc; simp [natDigitsAux]
  | succ f ih =>
    intro n acc
    by_cases h : n < 10
    · simp [natDigitsAux, h]
    · simp only [natDigitsAux, h, if_false]
      rw [ih (n / 10) (digitChar (n % 10) :: acc), ih (n / 10) [digitChar (n % 10)]]
      simp

theorem natDigitsAux_fuel :
    ∀ fuel n acc, n < fuel → natDigitsAux fuel n acc = natDigitsAux (n + 1) n acc := by
  intro fuel
  induction fuel using Nat.strong_induction_on with
  | _ fuel ih =>
    intro n acc h
    obtain ⟨f, rfl⟩ : ∃ f, fuel = f + 1 := ⟨fuel - 1, by omega⟩
    by_cases h10 : n < 10
    · rw [natDigitsAux, natDigitsAux]; simp [h10]
    · have hd : n / 10 < n := Nat.div_lt_self (by omega) (by omega)
      rw [natDigitsAux,
        show natDigitsAux (n + 1) n acc = natDigitsAux n (n / 10) (digitChar (n % 10) :: acc) from by
          rw [natDigitsAux]; simp [h10]]
      simp only [h10, if_false]
      rw [ih f (by omega) (n / 10) _ (by omega), ih n (by omega) (n / 10) _ hd]

theorem natDigits_eq (n : Nat) :
    natDigits n =
      if n < 10 then [digitChar n] else natDigits (n / 10) ++ [digitChar (n % 10)] := by
  by_cases h : n < 10
  · simp [natDigits, natDigitsAux, h]
  · have hd : n / 10 < n := Nat.div_lt_self (by omega) (by omega)
    have h1 : natDigits n = natDigitsAux n (n / 10) [digitChar (n % 10)] := by
      rw [natDigits, natDigitsAux]; simp [h]
    rw [h1, natDigitsAux_fuel n (n / 10) _ hd, natDigitsAux_acc]
    simp [h, natDigits]

theorem natDigits_all_digits : ∀ n, ∀ c ∈ natDigits n, isDigitCh c = true := by
  intro n
  induction n using Nat.strong_induction_on with
  | _ n ih =>
    rw [natDigits_eq]
    by_cases h : n < 10
    · simp only [h, if_true, List.mem_singleton]
      intro c hc; subst hc; exact isDigitCh_digitChar n h
    · have hd : n / 10 < n := Nat.div_lt_self (by omega) (by omega)
      simp only [h, if_false, List.mem_append, List.mem_singleton]
      intro c hc
      rcases hc with hc | hc
      · exact ih (n / 10) hd c hc
      · subst hc; exact isDigitCh_digitChar _ (Nat.mod_lt _ (by omega))

theorem natDigits_head : ∀ n, ∃ d t, d < 10 ∧ natDigits n = digitChar d :: t := by
  intro n
  induction n using Nat.strong_induction_on with
  | _ n ih =>
    rw [natDigits_eq]
    by_cases h : n < 10
    · exact ⟨n, [], h, by simp [h]⟩
    · have hd : n / 10 < n := Nat.div_lt_self (by omega) (by omega)
      obtain ⟨d, t, hdlt, ht⟩ := ih (n / 10) hd
      exact ⟨d, t ++ [digitChar (n % 10)], hdlt, by simp [h, ht]⟩

theorem foldl_step_natDigits :
    ∀ n, (natDigits n).foldl (fun a c => a * 10 + (c.toNat - 48)) 0 = n := by
  intro n
  induction n using Nat.strong_induction_on with
  | _ n ih =>
    rw [natDigits_eq]
    by_cases h : n < 10
    · simp [h, List.foldl, digitChar_val n h]
    · have hd : n / 10 < n := Nat.div_lt_self (by omega) (by omega)
      simp only [h, if_false, List.foldl_append, List.foldl, ih (n / 10) hd,
        digitChar_val _ (Nat.mod_lt _ (by omega))]
      omega

theorem parseDigits_run :
    ∀ ds rest acc, (∀ c ∈ ds, isDigitCh c = true) → noDigitHead rest →
      parseDigitsAux (ds ++ rest) acc =
        (ds.foldl (fun a c => a * 10 + (c.toNat - 48)) acc, rest) := by
  intro ds
  induction ds with
  | nil =>
    intro rest acc _ hrest
    cases rest with
    | nil => simp [parseDigitsAux]
    | cons c cs =>
      simp only [noDigitHead] at hrest
      simp [parseDigitsAux, hrest]
  | cons d ds ih =>
    intro rest acc hds hrest
    have hd : isDigitCh d = true := hds d (by simp)
    simp only [List.cons_append, parseDigitsAux, hd, if_true, List.foldl]
    exact ih rest _ (fun c hc => hds c (by simp [hc])) hrest

theorem parseNumber_intDigits (n : Int) (rest : List Char) (h : noDigitHead rest) :
    parseNumber (intDigits n ++ rest) = some (n, rest) := by
  cases n with
  | ofNat m =>
    obtain ⟨d, t, hdlt, ht⟩ := natDigits_head m
    have hrun := parseDigits_run (natDigits m) rest 0 (natDigits_all_digits m) h
    rw [foldl_step_natDigits] at hrun
    have hshape : intDigits (Int.ofNat m) ++ rest = digitChar d :: (t ++ rest) := by
      simp [intDigits, ht]
    rw [hshape, parseNumber]
    simp only [digitChar_ne_dash d hdlt, if_false]
    rw [parseNatNum]
    simp only [isDigitCh_digitChar d hdlt, if_true]
    rw [show digitChar d :: (t ++ rest) = natDigits m ++ rest from by simp [ht], hrun]
    simp
  | negSucc m =>
    obtain ⟨d, t, hdlt, ht⟩ := natDigits_head (m + 1)
    have hrun := parseDigits_run (natDigits (m + 1)) rest 0 (natDigits_all_digits (m + 1)) h
    rw [foldl_step_natDigits] at hrun
    have hshape : intDigits (Int.negSucc m) ++ rest = '-' :: (natDigits (m + 1) ++ rest) := by
      simp [intDigits]
    rw [hshape, parseNumber]
    simp only [if_pos rfl]
    rw [show natDigits (m + 1) ++ rest = digitChar d :: (t ++ rest) from by simp [ht],
      parseNatNum]
    simp only [isDigitCh_digitChar d hdlt, if_true]
    rw [show digitChar d :: (t ++ rest) = natDigits (m + 1) ++ rest from by simp [ht], hrun]
    simp [Int.negSucc_eq]

/-! ## String-literal roundtrip -/

theorem escString_nil : escString [] = [] := rfl

theorem escString_cons (c : Char) (s : List Char) :
    escString (c :: s) = escapeChar c ++ escString s := by
  simp [escString]

theorem parseStringBody_escString :
    ∀ s rest, parseStringBody (escString s ++ quoteCh :: rest) = some (s, rest) := by
  have hbq : ¬ backslashCh = quoteCh := by decide
  intro s
  induction s with
  | nil =>
    intro rest
    rw [escString_nil, List.nil_append, parseStringBody]
    simp
  | cons c s ih =>
    intro rest
    rw [escString_cons, List.append_assoc]
    by_cases h1 : c = quoteCh
    · subst h1
      rw [show escapeChar quoteCh = [backslashCh, quoteCh] from by decide]
      simp only [List.cons_append, List.nil_append]
      rw [parseStringBody]
      simp only [hbq, if_false, if_pos rfl, if_true, parseEsc,
        show escCode quoteCh = some quoteCh from by decide, ih, consChar]
    · by_cases h2 : c = backslashCh
      · subst h2
        rw [show escapeChar backslashCh = [backslashCh, backslashCh] from by decide]
        simp only [List.cons_append, List.nil_append]
        rw [parseStringBody]
        simp only [hbq, if_false, if_pos rfl, if_true, parseEsc,
          show escCode backslashCh = some backslashCh from by decide, ih, consChar]
      · by_cases h3 : c = Char.ofNat 10
        · subst h3
          rw [show escapeChar (Char.ofNat 10) = [backslashCh, 'n'] from by decide]
          simp only [List.cons_append, List.nil_append]
          rw [parseStringBody]
          simp only [hbq, if_false, if_pos rfl, if_true, parseEsc,
            show escCode 'n' = some (Char.ofNat 10) from by decide, ih, consChar]
        · by_cases h4 : c = Char.ofNat 13
          · subst h4
            rw [show escapeChar (Char.ofNat 13) = [backslashCh, 'r'] from by decide]
            simp only [List.cons_append, List.nil_append]
            rw [parseStringBody]
            simp only [hbq, if_false, if_pos rfl, if_true, parseEsc,
              show escCode 'r' = some (Char.ofNat 13) from by decide, ih, consChar]
          · by_cases h5 : c = Char.ofNat 9
            · subst h5
              rw [show escapeChar (Char.ofNat 9) = [backslashCh, 't'] from by decide]
              simp only [List.cons_append, List.nil_append]
              rw [parseStringBody]
              simp only [hbq, if_false, if_pos rfl, if_true, parseEsc,
                show escCode 't' = some (Char.ofNat 9) from by decide, ih, consChar]
            · by_cases h6 : c = Char.ofNat 8
              · subst h6
                rw [show escapeChar (Char.ofNat 8) = [backslashCh, 'b'] from by decide]
                simp only [List.cons_append, List.nil_append]
                rw [parseStringBody]
                simp only [hbq, if_false, if_pos rfl, if_true, parseEsc,
                  show escCode 'b' = some (Char.ofNat 8) from by decide, ih, consChar]
              · by_cases h7 : c = Char.ofNat 12
                · subst h7
                  rw [show escapeChar (Char.ofNat 12) = [backslashCh, 'f'] from by decide]
                  simp only [List.cons_append, List.nil_append]
                  rw [parseStringBody]
                  simp only [hbq, if_false, if_pos rfl, if_true, parseEsc,
                    show escCode 'f' = some (Char.ofNat 12) from by decide, ih, consChar]
                · by_cases h8 : c.toNat < 32
                  · have e1 : hexVal (hexDigitChar (c.toNat / 16)) = some (c.toNat / 16) :=
                      hexVal_hexDigitChar _ (by omega)
                    have e2 : hexVal (hexDigitChar (c.toNat % 16)) = some (c.toNat % 16) :=
                      hexVal_hexDigitChar _ (Nat.mod_lt _ (by omega))
                    have hchar : ((0 * 16 + 0) * 16 + c.toNat / 16) * 16 + c.toNat % 16
                        = c.toNat := by omega
                    rw [show escapeChar c
                        = [backslashCh, 'u', '0', '0', hexDigitChar (c.toNat / 16),
                           hexDigitChar (c.toNat % 16)] from by
                      simp [escapeChar, h1, h2, h3, h4, h5, h6, h7, h8]]
                    simp only [List.cons_append, List.nil_append]
                    rw [parseStringBody]
                    simp only [hbq, if_false, if_pos rfl, if_true, parseEsc,
                      show escCode 'u' = none from by decide, if_pos rfl, parseHexEsc,
                      show hexVal '0' = some 0 from by decide, e1, e2, ih, consChar]
                    rw [hchar, Char.ofNat_toNat]
                  · rw [show escapeChar c = [c] from by
                      simp [escapeChar, h1, h2, h3, h4, h5, h6, h7, h8]]
                    simp only [List.cons_append, List.nil_append]
                    rw [parseStringBody]
                    simp only [h1, h2, h8, if_false, ih, consChar]

/-! ## Value-level roundtrip -/

theorem skipWs_cons_not (c : Char) (cs : List Char) (h : isWs c = false) :
    skipWs (c :: cs) = c :: cs := by
  rw [skipWs]; simp [h]

theorem noDigitHead_cons (c : Char) (r : List Char) (h : isDigitCh c = false) :
    noDigitHead (c :: r) := h

theorem jweight_pos : ∀ v : Json, 1 ≤ jweight v := by
  intro v
  cases v <;> simp only [jweight] <;> omega

theorem digitChar_head_facts : ∀ d, d < 10 →
    (¬ digitChar d = quoteCh) ∧ (¬ digitChar d = lbrace) ∧ (¬ digitChar d = lbrack) ∧
    (¬ digitChar d = 't') ∧ (¬ digitChar d = 'f') ∧ (¬ digitChar d = 'n') ∧
    (¬ digitChar d = rbrack) ∧ (¬ digitChar d = rbrace) ∧ (¬ digitChar d = ',') ∧
    isWs (digitChar d) = false := by decide

theorem stringify_head_spec (v : Json) :
    ∃ c t, stringify v = c :: t ∧ isWs c = false ∧ c ≠ rbrack ∧ c ≠ rbrace ∧ c ≠ ',' := by
  cases v with
  | null => exact ⟨'n', _, rfl, by decide, by decide, by decide, by decide⟩
  | bool b =>
    cases b with
    | false => exact ⟨'f', _, rfl, by decide, by decide, by decide, by decide⟩
    | true => exact ⟨'t', _, rfl, by decide, by decide, by decide, by decide⟩
  | num n =>
    cases n with
    | ofNat m =>
      obtain ⟨d, t, hdlt, ht⟩ := natDigits_head m
      obtain ⟨_, _, _, _, _, _, hrk, hrb, hcm, hws⟩ := digitChar_head_facts d hdlt
      exact ⟨digitChar d, t, by simp [stringify, intDigits, ht], hws, hrk, hrb, hcm⟩
    | negSucc m =>
      exact ⟨'-', natDigits (m + 1), rfl, by decide, by decide, by decide, by decide⟩
  | str s => exact ⟨quoteCh, _, rfl, by decide, by decide, by decide, by decide⟩
  | arr xs => exact ⟨lbrack, _, rfl, by decide, by decide, by decide, by decide⟩
  | obj fs => exact ⟨lbrace, _, rfl, by decide, by decide, by decide, by decide⟩

theorem skipWs_stringify (v : Json) (rest : List Char) :
    skipWs (stringify v ++ rest) = stringify v ++ rest := by
  obtain ⟨c, t, hv, hws, _, _, _⟩ := stringify_head_spec v
  rw [hv, List.cons_append, skipWs_cons_not _ _ hws]

mutual

theorem jweight_le : ∀ v : Json, jweight v ≤ (stringify v).length
  | .null => by decide
  | .bool b => by cases b <;> decide
  | .num n => by
    cases n with
    | ofNat m =>
      obtain ⟨d, t, _, ht⟩ := natDigits_head m
      simp [jweight, stringify, intDigits, ht]
    | negSucc m =>
      simp [jweight, stringify, intDigits]
  | .str s => by simp [jweight, stringify]
  | .arr [] => by decide
  | .arr (x :: xs) => by
    have h := wArr_le (x :: xs) (by simp)
    have hlen : (stringify (Json.arr (x :: xs))).length
        = (stringifyElems (x :: xs)).length + 2 := by
      simp [stringify]
    simp only [jweight]
    omega
  | .obj [] => by decide
  | .obj (f :: fs) => by
    have h := wObj_le (f :: fs) (by simp)
    have hlen : (stringify (Json.obj (f :: fs))).length
        = (stringifyFields (f :: fs)).length + 2 := by
      simp [stringify]
    simp only [jweight]
    omega

theorem wArr_le : ∀ xs : List Json, xs ≠ [] → wArr xs ≤ (stringifyElems xs).length + 1
  | [], h => absurd rfl h
  | [x], _ => by
    have h := jweight_le x
    rw [show wArr [x] = jweight x + 1 from rfl,
      show stringifyElems [x] = stringify x from rfl]
    omega
  | x :: y :: xs, _ => by
    have h1 := jweight_le x
    have h2 := wArr_le (y :: xs) (by simp)
    rw [show wArr (x :: y :: xs) = jweight x + wArr (y :: xs) + 1 from rfl,
      show stringifyElems (x :: y :: xs)
        = stringify x ++ ',' :: stringifyElems (y :: xs) from rfl]
    simp only [List.length_append, List.length_cons]
    omega

theorem wObj_le :
    ∀ fs : List (List Char × Json), fs ≠ [] → wObj fs ≤ (stringifyFields fs).length + 1
  | [], h => absurd rfl h
  | [(k, v)], _ => by
    have h := jweight_le v
    rw [show wObj [(k, v)] = jweight v + 1 from rfl,
      show stringifyFields [(k, v)]
        = quoteCh :: escString k ++ quoteCh :: ':' :: stringify v from rfl]
    simp only [List.length_append, List.length_cons]
    omega
  | (k, v) :: f :: fs, _ => by
    have h1 := jweight_le v
    have h2 := wObj_le (f :: fs) (by simp)
    rw [show wObj ((k, v) :: f :: fs) = jweight v + wObj (f :: fs) + 1 from rfl,
      show stringifyFields ((k, v) :: f :: fs)
        = (quoteCh :: escString k ++ quoteCh :: ':' :: stringify v)
          ++ ',' :: stringifyFields (f :: fs) from rfl]
    simp only [List.length_append, List.length_cons]
    omega

end

theorem hasKey_append :
    ∀ a b : List (List Char × Json), ∀ key, hasKey (a ++ b) key = (hasKey a key || hasKey b key) := by
  intro a
  induction a with
  | nil => intro b key; simp [hasKey]
  | cons kv a ih =>
    intro b key
    obtain ⟨k, v⟩ := kv
    simp [hasKey, ih, Bool.or_assoc]

theorem upsert_fresh :
    ∀ acc : List (List Char × Json), ∀ k v, hasKey acc k = false →
      upsert acc k v = acc ++ [(k, v)] := by
  intro acc
  induction acc with
  | nil => intro k v _; rfl
  | cons kv acc ih =>
    intro k v h
    obtain ⟨k0, v0⟩ := kv
    simp only [hasKey, Bool.or_eq_false_iff] at h
    obtain ⟨hne, hrest⟩ := h
    have hne' : ¬ k0 = k := by simpa using hne
    rw [upsert, if_neg hne', ih k v hrest]
    simp

theorem spreadInto_fresh :
    ∀ fs acc : List (List Char × Json),
      (∀ key, hasKey fs key = true → hasKey acc key = false) →
      nodupKeys fs = true → spreadInto acc fs = acc ++ fs := by
  intro fs
  induction fs with
  | nil => intro acc _ _; simp [spreadInto]
  | cons kv fs ih =>
    intro acc h hnd
    obtain ⟨k, v⟩ := kv
    simp only [nodupKeys, Bool.and_eq_true, Bool.not_eq_true'] at hnd
    obtain ⟨hkfs, hndfs⟩ := hnd
    have hacck : hasKey acc k = false := h k (by simp [hasKey])
    rw [spreadInto, upsert_fresh acc k v hacck]
    rw [ih (acc ++ [(k, v)]) ?_ hndfs]
    · simp
    · intro key hkey
      rw [hasKey_append]
      have h1 : hasKey acc key = false := h key (by simp [hasKey, hkey])
      have hkk : k ≠ key := by
        intro hkk
        rw [hkk, hkey] at hkfs
        exact absurd hkfs (by simp)
      have h2 : hasKey [(k, v)] key = false := by simp [hasKey, hkk]
      simp [h1, h2]

theorem dedupFields_eq_self (fs : List (List Char × Json)) (h : nodupKeys fs = true) :
    dedupFields fs = fs := by
  rw [dedupFields, spreadInto_fresh fs [] (fun key _ => rfl) h]
  simp

theorem roundtripAux : ∀ fuel : Nat,
    (∀ v rest, wfJson v = true → jweight v ≤ fuel → noDigitHead rest →
      parseValue fuel (stringify v ++ rest) = some (v, rest)) ∧
    (∀ xs rest, xs ≠ [] → wfArr xs = true → wArr xs ≤ fuel →
      parseElems fuel (stringifyElems xs ++ rbrack :: rest) = some (xs, rest)) ∧
    (∀ fs rest, fs ≠ [] → wfObj fs = true → wObj fs ≤ fuel →
      parseMembers fuel (stringifyFields fs ++ rbrace :: rest) = some (fs, rest)) := by
  intro fuel
  induction fuel with
  | zero =>
    refine ⟨?_, ?_, ?_⟩
    · intro v rest _ hw _
      have := jweight_pos v
      omega
    · intro xs rest hne _ hw
      cases xs with
      | nil => exact absurd rfl hne
      | cons x xs =>
        rw [show wArr (x :: xs) = jweight x + wArr xs + 1 from rfl] at hw
        omega
    · intro fs rest hne _ hw
      cases fs with
      | nil => exact absurd rfl hne
      | cons f0 fs =>
        obtain ⟨k, v⟩ := f0
        rw [show wObj ((k, v) :: fs) = jweight v + wObj fs + 1 from rfl] at hw
        omega
  | succ f ih =>
    obtain ⟨ihV, ihE, ihM⟩ := ih
    refine ⟨?_, ?_, ?_⟩
    · intro v rest hwf hw hnd
      cases v with
      | null =>
        have e : stringify Json.null = ['n', 'u', 'l', 'l'] := rfl
        rw [parseValue, e]
        simp only [List.cons_append, List.nil_append]
        rw [skipWs_cons_not _ _ (by decide)]
        simp only [(by decide : ¬ ('n' : Char) = quoteCh), (by decide : ¬ ('n' : Char) = lbrace),
          (by decide : ¬ ('n' : Char) = lbrack), (by decide : ¬ ('n' : Char) = 't'),
          (by decide : ¬ ('n' : Char) = 'f'), if_false, if_true, if_pos rfl]
      | bool b =>
        cases b with
        | true =>
          have e : stringify (Json.bool true) = ['t', 'r', 'u', 'e'] := rfl
          rw [parseValue, e]
          simp only [List.cons_append, List.nil_append]
          rw [skipWs_cons_not _ _ (by decide)]
          simp only [(by decide : ¬ ('t' : Char) = quoteCh),
            (by decide : ¬ ('t' : Char) = lbrace), (by decide : ¬ ('t' : Char) = lbrack),
            if_false, if_true, if_pos rfl]
        | false =>
          have e : stringify (Json.bool false) = ['f', 'a', 'l', 's', 'e'] := rfl
          rw [parseValue, e]
          simp only [List.cons_append, List.nil_append]
          rw [skipWs_cons_not _ _ (by decide)]
          simp only [(by decide : ¬ ('f' : Char) = quoteCh),
            (by decide : ¬ ('f' : Char) = lbrace), (by decide : ¬ ('f' : Char) = lbrack),
            (by decide : ¬ ('f' : Char) = 't'), if_false, if_true, if_pos rfl]
      | num n =>
        cases n with
        | ofNat m =>
          obtain ⟨d, t, hdlt, ht⟩ := natDigits_head m
          obtain ⟨hq, hb, hk, ht', hf', hn', _, _, _, hws⟩ := digitChar_head_facts d hdlt
          have e : stringify (Json.num (Int.ofNat m)) ++ rest = digitChar d :: (t ++ rest) := by
            rw [show stringify (Json.num (Int.ofNat m)) = natDigits m from rfl, ht]
            simp
          rw [parseValue, e, skipWs_cons_not _ _ hws]
          simp only [hq, hb, hk, ht', hf', hn', if_false]
          rw [show digitChar d :: (t ++ rest) = intDigits (Int.ofNat m) ++ rest from by
            rw [show intDigits (Int.ofNat m) = natDigits m from rfl, ht]; simp]
          rw [parseNumber_intDigits _ _ hnd]
        | negSucc m =>
          have e : stringify (Json.num (Int.negSucc m)) ++ rest
              = '-' :: (natDigits (m + 1) ++ rest) := rfl
          rw [parseValue, e, skipWs_cons_not _ _ (by decide)]
          simp only [(by decide : ¬ ('-' : Char) = quoteCh),
            (by decide : ¬ ('-' : Char) = lbrace), (by decide : ¬ ('-' : Char) = lbrack),
            (by decide : ¬ ('-' : Char) = 't'), (by decide : ¬ ('-' : Char) = 'f'),
            (by decide : ¬ ('-' : Char) = 'n'), if_false]
          rw [show ('-' : Char) :: (natDigits (m + 1) ++ rest)
              = intDigits (Int.negSucc m) ++ rest from rfl]
          rw [parseNumber_intDigits _ _ hnd]
      | str s =>
        have e : stringify (Json.str s) = quoteCh :: (escString s ++ [quoteCh]) := rfl
        rw [parseValue, e]
        simp only [List.cons_append, List.nil_append, List.append_assoc]
        rw [skipWs_cons_not _ _ (by decide)]
        simp only [if_pos rfl, if_true, parseStringBody_escString]
      | arr xs =>
        cases xs with
        | nil =>
          have e : stringify (Json.arr []) = [lbrack, rbrack] := rfl
          rw [parseValue, e]
          simp only [List.cons_append, List.nil_append]
          rw [skipWs_cons_not _ _ (by decide)]
          simp only [(by decide : ¬ lbrack = quoteCh), (by decide : ¬ lbrack = lbrace),
            if_false, if_pos rfl, if_true]
          rw [skipWs_cons_not _ _ (by decide)]
          simp only [if_pos rfl, if_true]
        | cons x xs =>
          obtain ⟨c0, t0, hx, hws0, hrk0, _, _⟩ := stringify_head_spec x
          have hu : ∃ u, stringifyElems (x :: xs) = c0 :: u := by
            cases xs with
            | nil => exact ⟨t0, by rw [show stringifyElems [x] = stringify x from rfl, hx]⟩
            | cons y ys =>
              exact ⟨t0 ++ ',' :: stringifyElems (y :: ys), by
                rw [show stringifyElems (x :: y :: ys)
                  = stringify x ++ ',' :: stringifyElems (y :: ys) from rfl, hx]
                simp⟩
          obtain ⟨u, hu⟩ := hu
          have e : stringify (Json.arr (x :: xs)) ++ rest
              = lbrack :: (stringifyElems (x :: xs) ++ (rbrack :: rest)) := by
            rw [show stringify (Json.arr (x :: xs))
              = lbrack :: stringifyElems (x :: xs) ++ [rbrack] from rfl]
            simp
          rw [parseValue, e, skipWs_cons_not _ _ (by decide)]
          simp only [(by decide : ¬ lbrack = quoteCh), (by decide : ¬ lbrack = lbrace),
            if_false, if_pos rfl, if_true]
          have hS : stringifyElems (x :: xs) ++ (rbrack :: rest)
              = c0 :: (u ++ rbrack :: rest) := by rw [hu]; simp
          rw [hS, skipWs_cons_not _ _ hws0]
          simp only [if_neg hrk0]
          rw [← hS]
          have hwf' : wfArr (x :: xs) = true := by
            rw [show wfJson (Json.arr (x :: xs)) = wfArr (x :: xs) from rfl] at hwf
            exact hwf
          have hw' : wArr (x :: xs) ≤ f := by
            rw [show jweight (Json.arr (x :: xs)) = wArr (x :: xs) + 1 from rfl] at hw
            omega
          rw [ihE (x :: xs) rest (by simp) hwf' hw']
      | obj fs =>
        cases fs with
        | nil =>
          have e : stringify (Json.obj []) = [lbrace, rbrace] := rfl
          rw [parseValue, e]
          simp only [List.cons_append, List.nil_append]
          rw [skipWs_cons_not _ _ (by decide)]
          simp only [(by decide : ¬ lbrace = quoteCh), if_false, if_pos rfl, if_true]
          rw [skipWs_cons_not _ _ (by decide)]
          simp only [if_pos rfl, if_true]
        | cons f0 fs =>
          obtain ⟨k0, v0⟩ := f0
          have hu : ∃ u, stringifyFields ((k0, v0) :: fs) = quoteCh :: u := by
            cases fs with
            | nil => exact ⟨escString k0 ++ quoteCh :: ':' :: stringify v0, rfl⟩
            | cons f1 fs1 =>
              exact ⟨(escString k0 ++ quoteCh :: ':' :: stringify v0)
                  ++ ',' :: stringifyFields (f1 :: fs1), by
                rw [show stringifyFields ((k0, v0) :: f1 :: fs1)
                  = (quoteCh :: escString k0 ++ quoteCh :: ':' :: stringify v0)
                    ++ ',' :: stringifyFields (f1 :: fs1) from rfl]
                simp⟩
          obtain ⟨u, hu⟩ := hu
          have e : stringify (Json.obj ((k0, v0) :: fs)) ++ rest
              = lbrace :: (stringifyFields ((k0, v0) :: fs) ++ (rbrace :: rest)) := by
            rw [show stringify (Json.obj ((k0, v0) :: fs))
              = lbrace :: stringifyFields ((k0, v0) :: fs) ++ [rbrace] from rfl]
            simp
          rw [parseValue, e, skipWs_cons_not _ _ (by decide)]
          simp only [(by decide : ¬ lbrace = quoteCh), if_false, if_pos rfl, if_true]
          have hS : stringifyFields ((k0, v0) :: fs) ++ (rbrace :: rest)
              = quoteCh :: (u ++ rbrace :: rest) := by rw [hu]; simp
          rw [hS, skipWs_cons_not _ _ (by decide)]
          simp only [if_neg (by decide : ¬ quoteCh = rbrace)]
          rw [← hS]
          have hnod : nodupKeys ((k0, v0) :: fs) = true ∧ wfObj ((k0, v0) :: fs) = true := by
            rw [show wfJson (Json.obj ((k0, v0) :: fs))
              = (nodupKeys ((k0, v0) :: fs) && wfObj ((k0, v0) :: fs)) from rfl] at hwf
            simpa using hwf
          have hw' : wObj ((k0, v0) :: fs) ≤ f := by
            rw [show jweight (Json.obj ((k0, v0) :: fs))
              = wObj ((k0, v0) :: fs) + 1 from rfl] at hw
            omega
          rw [ihM ((k0, v0) :: fs) rest (by simp) hnod.2 hw']
          simp only [dedupFields_eq_self _ hnod.1]
    · intro xs rest hne hwf hw
      cases xs with
      | nil => exact absurd rfl hne
      | cons x xs =>
        have hwfx : wfJson x = true ∧ wfArr xs = true := by
          rw [show wfArr (x :: xs) = (wfJson x && wfArr xs) from rfl] at hwf
          simpa using hwf
        rw [parseElems]
        cases xs with
        | nil =>
          have hwx : jweight x ≤ f := by
            rw [show wArr [x] = jweight x + 1 from rfl] at hw
            omega
          have e : stringifyElems [x] ++ rbrack :: rest = stringify x ++ (rbrack :: rest) := by
            rw [show stringifyElems [x] = stringify x from rfl]
          rw [e, ihV x (rbrack :: rest) hwfx.1 hwx (noDigitHead_cons _ _ (by decide))]
          dsimp only
          rw [skipWs_cons_not _ _ (by decide)]
          simp only [(by decide : ¬ rbrack = ','), if_false, if_pos rfl, if_true]
        | cons y ys =>
          have hwx : jweight x ≤ f ∧ wArr (y :: ys) ≤ f := by
            rw [show wArr (x :: y :: ys) = jweight x + wArr (y :: ys) + 1 from rfl] at hw
            omega
          have e : stringifyElems (x :: y :: ys) ++ rbrack :: rest
              = stringify x ++ (',' :: (stringifyElems (y :: ys) ++ rbrack :: rest)) := by
            rw [show stringifyElems (x :: y :: ys)
              = stringify x ++ ',' :: stringifyElems (y :: ys) from rfl]
            simp
          rw [e, ihV x _ hwfx.1 hwx.1 (noDigitHead_cons _ _ (by decide))]
          dsimp only
          rw [skipWs_cons_not _ _ (by decide)]
          simp only [if_pos rfl, if_true]
          rw [ihE (y :: ys) rest (by simp) hwfx.2 hwx.2]
    · intro fs rest hne hwf hw
      cases fs with
      | nil => exact absurd rfl hne
      | cons f0 fs =>
        obtain ⟨k0, v0⟩ := f0
        have hwfv : wfJson v0 = true ∧ wfObj fs = true := by
          rw [show wfObj ((k0, v0) :: fs) = (wfJson v0 && wfObj fs) from rfl] at hwf
          simpa using hwf
        cases fs with
        | nil =>
          have hwv : jweight v0 ≤ f := by
            rw [show wObj [(k0, v0)] = jweight v0 + 1 from rfl] at hw
            omega
          have e : stringifyFields [(k0, v0)] ++ rbrace :: rest
              = quoteCh :: (escString k0
                  ++ quoteCh :: (':' :: (stringify v0 ++ rbrace :: rest))) := by
            rw [show stringifyFields [(k0, v0)]
              = quoteCh :: escString k0 ++ quoteCh :: ':' :: stringify v0 from rfl]
            simp
          rw [e, parseMembers]
          simp only [if_pos rfl, if_true]
          rw [parseStringBody_escString]
          dsimp only
          rw [skipWs_cons_not _ _ (by decide)]
          simp only [if_pos rfl, if_true]
          rw [ihV v0 _ hwfv.1 hwv (noDigitHead_cons _ _ (by decide))]
          dsimp only
          rw [skipWs_cons_not _ _ (by decide)]
          simp only [(by decide : ¬ rbrace = ','), if_false, if_pos rfl, if_true]
        | cons f1 fs1 =>
          obtain ⟨k1, v1⟩ := f1
          have hwv : jweight v0 ≤ f ∧ wObj ((k1, v1) :: fs1) ≤ f := by
            rw [show wObj ((k0, v0) :: (k1, v1) :: fs1)
              = jweight v0 + wObj ((k1, v1) :: fs1) + 1 from rfl] at hw
            omega
          have hu : ∃ u, stringifyFields ((k1, v1) :: fs1) = quoteCh :: u := by
            cases fs1 with
            | nil => exact ⟨escString k1 ++ quoteCh :: ':' :: stringify v1, rfl⟩
            | cons f2 fs2 =>
              exact ⟨(escString k1 ++ quoteCh :: ':' :: stringify v1)
                  ++ ',' :: stringifyFields (f2 :: fs2), by
                rw [show stringifyFields ((k1, v1) :: f2 :: fs2)
                  = (quoteCh :: escString k1 ++ quoteCh :: ':' :: stringify v1)
                    ++ ',' :: stringifyFields (f2 :: fs2) from rfl]
                simp⟩
          obtain ⟨u, hu⟩ := hu
          have e : stringifyFields ((k0, v0) :: (k1, v1) :: fs1) ++ rbrace :: rest
              = quoteCh :: (escString k0 ++ quoteCh :: (':' :: (stringify v0
                  ++ ',' :: (stringifyFields ((k1, v1) :: fs1) ++ rbrace :: rest)))) := by
            rw [show stringifyFields ((k0, v0) :: (k1, v1) :: fs1)
              = (quoteCh :: escString k0 ++ quoteCh :: ':' :: stringify v0)
                ++ ',' :: stringifyFields ((k1, v1) :: fs1) from rfl]
            simp
          rw [e, parseMembers]
          simp only [if_pos rfl, if_true]
          rw [parseStringBody_escString]
          dsimp only
          rw [skipWs_cons_not _ _ (by decide)]
          simp only [if_pos rfl, if_true]
          rw [ihV v0 _ hwfv.1 hwv.1 (noDigitHead_cons _ _ (by decide))]
          dsimp only
          rw [skipWs_cons_not _ _ (by decide)]
          simp only [if_pos rfl, if_true]
          have hS : stringifyFields ((k1, v1) :: fs1) ++ rbrace :: rest
              = quoteCh :: (u ++ rbrace :: rest) := by rw [hu]; simp
          rw [hS, skipWs_cons_not _ _ (by decide), ← hS]
          rw [ihM ((k1, v1) :: fs1) rest (by simp) hwfv.2 hwv.2]

theorem jsonParse_stringify (v : Json) (h : wfJson v = true) :
    jsonParse (stringify v) = some v := by
  have hw : jweight v ≤ (stringify v).length + 1 := by
    have := jweight_le v
    omega
  have hr := (roundtripAux ((stringify v).length + 1)).1 v [] h hw trivial
  rw [List.append_nil] at hr
  rw [jsonParse, hr]
  simp [skipWs]

/-! ## Characters of printed values: no raw newline, and no line
terminator at all when the value is free of U+2028/U+2029 -/

theorem not_nl_of_toNat (c : Char) (h10 : c.toNat ≠ 10) : ¬ c = nlCh :=
  fun he => h10 (by rw [he]; rfl)

theorem notLT_of_toNat (c : Char) (h10 : c.toNat ≠ 10) (h13 : c.toNat ≠ 13)
    (h28 : c.toNat ≠ 8232) (h29 : c.toNat ≠ 8233) : isLineTerm c = false := by
  simp only [isLineTerm, Bool.or_eq_false_iff, decide_eq_false_iff_not]
  refine ⟨⟨⟨?_, ?_⟩, ?_⟩, ?_⟩ <;> intro he
  · exact h10 (by rw [he]; rfl)
  · exact h13 (by rw [he]; rfl)
  · exact h28 (by rw [he]; rfl)
  · exact h29 (by rw [he]; rfl)

theorem hexDigitChar_toNat : ∀ n, n < 16 →
    48 ≤ (hexDigitChar n).toNat ∧ (hexDigitChar n).toNat ≤ 102 := by decide

theorem escapeChar_mem_toNat (c d : Char) (hd : d ∈ escapeChar c) :
    d.toNat ≠ 10 ∧ d.toNat ≠ 13 ∧
      (isU28 c = false → d.toNat ≠ 8232 ∧ d.toNat ≠ 8233) := by
  unfold escapeChar at hd
  split_ifs at hd with h1 h2 h3 h4 h5 h6 h7 h8
  · simp only [List.mem_cons, List.not_mem_nil, or_false] at hd
    rcases hd with rfl | rfl <;>
      exact ⟨by decide, by decide, fun _ => ⟨by decide, by decide⟩⟩
  · simp only [List.mem_cons, List.not_mem_nil, or_false] at hd
    rcases hd with rfl | rfl <;>
      exact ⟨by decide, by decide, fun _ => ⟨by decide, by decide⟩⟩
  · simp only [List.mem_cons, List.not_mem_nil, or_false] at hd
    rcases hd with rfl | rfl <;>
      exact ⟨by decide, by decide, fun _ => ⟨by decide, by decide⟩⟩
  · simp only [List.mem_cons, List.not_mem_nil, or_false] at hd
    rcases hd with rfl | rfl <;>
      exact ⟨by decide, by decide, fun _ => ⟨by decide, by decide⟩⟩
  · simp only [List.mem_cons, List.not_mem_nil, or_false] at hd
    rcases hd with rfl | rfl <;>
      exact ⟨by decide, by decide, fun _ => ⟨by decide, by decide⟩⟩
  · simp only [List.mem_cons, List.not_mem_nil, or_false] at hd
    rcases hd with rfl | rfl <;>
      exact ⟨by decide, by decide, fun _ => ⟨by decide, by decide⟩⟩
  · simp only [List.mem_cons, List.not_mem_nil, or_false] at hd
    rcases hd with rfl | rfl <;>
      exact ⟨by decide, by decide, fun _ => ⟨by decide, by decide⟩⟩
  · simp only [List.mem_cons, List.not_mem_nil, or_false] at hd
    have hq : c.toNat / 16 < 16 := by omega
    have hr : c.toNat % 16 < 16 := Nat.mod_lt _ (by omega)
    have b1 := hexDigitChar_toNat _ hq
    have b2 := hexDigitChar_toNat _ hr
    rcases hd with rfl | rfl | rfl | rfl | rfl | rfl
    · exact ⟨by decide, by decide, fun _ => ⟨by decide, by decide⟩⟩
    · exact ⟨by decide, by decide, fun _ => ⟨by decide, by decide⟩⟩
    · exact ⟨by decide, by decide, fun _ => ⟨by decide, by decide⟩⟩
    · exact ⟨by decide, by decide, fun _ => ⟨by decide, by decide⟩⟩
    · exact ⟨by omega, by omega, fun _ => ⟨by omega, by omega⟩⟩
    · exact ⟨by omega, by omega, fun _ => ⟨by omega, by omega⟩⟩
  · simp only [List.mem_cons, List.not_mem_nil, or_false] at hd
    subst hd
    refine ⟨by omega, by omega, fun hu => ?_⟩
    simp only [isU28, Bool.or_eq_false_iff, decide_eq_false_iff_not] at hu
    constructor <;> intro ht
    · exact hu.1 (by rw [← Char.ofNat_toNat d, ht])
    · exact hu.2 (by rw [← Char.ofNat_toNat d, ht])

theorem escString_mem_toNat (s : List Char) (d : Char) (hd : d ∈ escString s) :
    d.toNat ≠ 10 ∧ d.toNat ≠ 13 ∧
      ((!s.any isU28) = true → d.toNat ≠ 8232 ∧ d.toNat ≠ 8233) := by
  simp only [escString, List.mem_flatten, List.mem_map] at hd
  obtain ⟨l, ⟨c, hc, rfl⟩, hdl⟩ := hd
  have h := escapeChar_mem_toNat c d hdl
  refine ⟨h.1, h.2.1, fun hs => h.2.2 ?_⟩
  simp only [Bool.not_eq_true', List.any_eq_false] at hs
  simpa using hs c hc

mutual

theorem stringify_chars : ∀ v : Json, ∀ d ∈ stringify v,
    d.toNat ≠ 10 ∧ (jsonNoU28 v = true → isLineTerm d = false)
  | .null => by decide
  | .bool b => by cases b <;> decide
  | .num n => by
    intro d hd
    have hdig : ∀ c, isDigitCh c = true → c.toNat ≠ 10 ∧ isLineTerm c = false := by
      intro c h
      simp only [isDigitCh, Bool.and_eq_true, decide_eq_true_eq] at h
      exact ⟨by omega, notLT_of_toNat c (by omega) (by omega) (by omega) (by omega)⟩
    cases n with
    | ofNat m =>
      rw [show stringify (Json.num (Int.ofNat m)) = natDigits m from rfl] at hd
      have h := hdig d (natDigits_all_digits m d hd)
      exact ⟨h.1, fun _ => h.2⟩
    | negSucc m =>
      rw [show stringify (Json.num (Int.negSucc m)) = '-' :: natDigits (m + 1) from rfl] at hd
      rcases List.mem_cons.mp hd with rfl | hd
      · exact ⟨by decide, fun _ => by decide⟩
      · have h := hdig d (natDigits_all_digits (m + 1) d hd)
        exact ⟨h.1, fun _ => h.2⟩
  | .str s => by
    intro d hd
    rw [show stringify (Json.str s) = quoteCh :: (escString s ++ [quoteCh]) from rfl] at hd
    rcases List.mem_cons.mp hd with rfl | hd
    · exact ⟨by decide, fun _ => by decide⟩
    · rcases List.mem_append.mp hd with hd | hd
      · have h := escString_mem_toNat s d hd
        refine ⟨h.1, fun hu => ?_⟩
        rw [show jsonNoU28 (Json.str s) = !s.any isU28 from rfl] at hu
        obtain ⟨h28, h29⟩ := h.2.2 hu
        exact notLT_of_toNat d h.1 h.2.1 h28 h29
      · simp only [List.mem_singleton] at hd
        subst hd
        exact ⟨by decide, fun _ => by decide⟩
  | .arr xs => by
    intro d hd
    rw [show stringify (Json.arr xs) = lbrack :: (stringifyElems xs ++ [rbrack]) from by
      rw [show stringify (Json.arr xs) = lbrack :: stringifyElems xs ++ [rbrack] from rfl]
      simp] at hd
    rcases List.mem_cons.mp hd with rfl | hd
    · exact ⟨by decide, fun _ => by decide⟩
    · rcases List.mem_append.mp hd with hd | hd
      · have h := elems_chars xs d hd
        exact ⟨h.1, fun hu => h.2 (by
          rw [show jsonNoU28 (Json.arr xs) = arrNoU28 xs from rfl] at hu; exact hu)⟩
      · simp only [List.mem_singleton] at hd
        subst hd
        exact ⟨by decide, fun _ => by decide⟩
  | .obj fs => by
    intro d hd
    rw [show stringify (Json.obj fs) = lbrace :: (stringifyFields fs ++ [rbrace]) from by
      rw [show stringify (Json.obj fs) = lbrace :: stringifyFields fs ++ [rbrace] from rfl]
      simp] at hd
    rcases List.mem_cons.mp hd with rfl | hd
    · exact ⟨by decide, fun _ => by decide⟩
    · rcases List.mem_append.mp hd with hd | hd
      · have h := fields_chars fs d hd
        exact ⟨h.1, fun hu => h.2 (by
          rw [show jsonNoU28 (Json.obj fs) = objNoU28 fs from rfl] at hu; exact hu)⟩
      · simp only [List.mem_singleton] at hd
        subst hd
        exact ⟨by decide, fun _ => by decide⟩

theorem elems_chars : ∀ xs : List Json, ∀ d ∈ stringifyElems xs,
    d.toNat ≠ 10 ∧ (arrNoU28 xs = true → isLineTerm d = false)
  | [] => by intro d hd; simp [show stringifyElems [] = [] from rfl] at hd
  | [x] => by
    intro d hd
    rw [show stringifyElems [x] = stringify x from rfl] at hd
    have h := stringify_chars x d hd
    exact ⟨h.1, fun hu => h.2 (by
      rw [show arrNoU28 [x] = (jsonNoU28 x && arrNoU28 []) from rfl] at hu
      simp only [Bool.and_eq_true] at hu
      exact hu.1)⟩
  | x :: y :: xs => by
    intro d hd
    rw [show stringifyElems (x :: y :: xs)
      = stringify x ++ ',' :: stringifyElems (y :: xs) from rfl] at hd
    have hu28 : arrNoU28 (x :: y :: xs) = true →
        jsonNoU28 x = true ∧ arrNoU28 (y :: xs) = true := by
      intro hu
      rw [show arrNoU28 (x :: y :: xs) = (jsonNoU28 x && arrNoU28 (y :: xs)) from rfl] at hu
      simpa using hu
    rcases List.mem_append.mp hd with hd | hd
    · have h := stringify_chars x d hd
      exact ⟨h.1, fun hu => h.2 (hu28 hu).1⟩
    · rcases List.mem_cons.mp hd with rfl | hd
      · exact ⟨by decide, fun _ => by decide⟩
      · have h := elems_chars (y :: xs) d hd
        exact ⟨h.1, fun hu => h.2 (hu28 hu).2⟩

theorem fields_chars : ∀ fs : List (List Char × Json), ∀ d ∈ stringifyFields fs,
    d.toNat ≠ 10 ∧ (objNoU28 fs = true → isLineTerm d = false)
  | [] => by intro d hd; simp [show stringifyFields [] = [] from rfl] at hd
  | [(k, v)] => by
    intro d hd
    rw [show stringifyFields [(k, v)]
      = quoteCh :: (escString k ++ quoteCh :: ':' :: stringify v) from by
        rw [show stringifyFields [(k, v)]
          = quoteCh :: escString k ++ quoteCh :: ':' :: stringify v from rfl]
        simp] at hd
    have hu28 : objNoU28 [(k, v)] = true →
        (!k.any isU28) = true ∧ jsonNoU28 v = true := by
      intro hu
      rw [show objNoU28 [(k, v)]
        = (!k.any isU28 && jsonNoU28 v && objNoU28 []) from rfl] at hu
      simp only [Bool.and_eq_true] at hu
      exact ⟨hu.1.1, hu.1.2⟩
    rcases List.mem_cons.mp hd with rfl | hd
    · exact ⟨by decide, fun _ => by decide⟩
    rcases List.mem_append.mp hd with hd | hd
    · have h := escString_mem_toNat k d hd
      refine ⟨h.1, fun hu => ?_⟩
      obtain ⟨h28, h29⟩ := h.2.2 (hu28 hu).1
      exact notLT_of_toNat d h.1 h.2.1 h28 h29
    rcases List.mem_cons.mp hd with rfl | hd
    · exact ⟨by decide, fun _ => by decide⟩
    rcases List.mem_cons.mp hd with rfl | hd
    · exact ⟨by decide, fun _ => by decide⟩
    have h := stringify_chars v d hd
    exact ⟨h.1, fun hu => h.2 (hu28 hu).2⟩
  | (k, v) :: f :: fs => by
    intro d hd
    rw [show stringifyFields ((k, v) :: f :: fs)
      = quoteCh :: (escString k ++ quoteCh :: ':' :: stringify v
          ++ ',' :: stringifyFields (f :: fs)) from by
        rw [show stringifyFields ((k, v) :: f :: fs)
          = (quoteCh :: escString k ++ quoteCh :: ':' :: stringify v)
            ++ ',' :: stringifyFields (f :: fs) from rfl]
        simp] at hd
    have hu28 : objNoU28 ((k, v) :: f :: fs) = true →
        (!k.any isU28) = true ∧ jsonNoU28 v = true ∧ objNoU28 (f :: fs) = true := by
      intro hu
      rw [show objNoU28 ((k, v) :: f :: fs)
        = (!k.any isU28 && jsonNoU28 v && objNoU28 (f :: fs)) from rfl] at hu
      simpa [and_assoc] using hu
    rcases List.mem_cons.mp hd with rfl | hd
    · exact ⟨by decide, fun _ => by decide⟩
    rcases List.mem_append.mp hd with hd | hd
    · rcases List.mem_append.mp hd with hd | hd
      · have h := escString_mem_toNat k d hd
        refine ⟨h.1, fun hu => ?_⟩
        obtain ⟨h28, h29⟩ := h.2.2 (hu28 hu).1
        exact notLT_of_toNat d h.1 h.2.1 h28 h29
      rcases List.mem_cons.mp hd with rfl | hd
      · exact ⟨by decide, fun _ => by decide⟩
      rcases List.mem_cons.mp hd with rfl | hd
      · exact ⟨by decide, fun _ => by decide⟩
      · have h := stringify_chars v d hd
        exact ⟨h.1, fun hu => h.2 (hu28 hu).2.1⟩
    · rcases List.mem_cons.mp hd with rfl | hd
      · exact ⟨by decide, fun _ => by decide⟩
      · have h := fields_chars (f :: fs) d hd
        exact ⟨h.1, fun hu => h.2 (hu28 hu).2.2⟩

end

theorem stringify_no_nl (v : Json) : ∀ c ∈ stringify v, ¬ c = nlCh := by
  intro c hc
  exact not_nl_of_toNat c (stringify_chars v c hc).1

theorem stringify_noLT (v : Json) (h : jsonNoU28 v = true) :
    ∀ c ∈ stringify v, isLineTerm c = false := by
  intro c hc
  exact (stringify_chars v c hc).2 h

/-! ## Line splitting -/

theorem splitNl_cons_nl (cs : List Char) :
    splitNl (nlCh :: cs) = ([] :: (splitNl cs).1, (splitNl cs).2) := by
  rw [splitNl]
  simp

theorem splitNl_cons_nil (c : Char) (cs : List Char) (h : ¬ c = nlCh)
    (h2 : (splitNl cs).1 = []) :
    splitNl (c :: cs) = ([], c :: (splitNl cs).2) := by
  rw [splitNl]
  simp only [if_neg h, h2]

theorem splitNl_cons_cons (c : Char) (cs : List Char) (l : List Char) (ls : List (List Char))
    (h : ¬ c = nlCh) (h2 : (splitNl cs).1 = l :: ls) :
    splitNl (c :: cs) = ((c :: l) :: ls, (splitNl cs).2) := by
  rw [splitNl]
  simp only [if_neg h, h2]

theorem splitNl_append : ∀ a b : List Char,
    splitNl (a ++ b)
      = ((splitNl a).1 ++ (splitNl ((splitNl a).2 ++ b)).1,
         (splitNl ((splitNl a).2 ++ b)).2) := by
  intro a
  induction a with
  | nil => intro b; simp [splitNl]
  | cons c a ih =>
    intro b
    by_cases hc : c = nlCh
    · subst hc
      rw [List.cons_append, splitNl_cons_nl, splitNl_cons_nl, ih b]
      simp
    · cases h2 : (splitNl a).1 with
      | nil =>
        rw [List.cons_append, splitNl_cons_nil c a hc h2]
        have hsub := ih b
        rw [h2, List.nil_append] at hsub
        rw [List.cons_append]
        cases h3 : (splitNl ((splitNl a).2 ++ b)).1 with
        | nil =>
          rw [splitNl_cons_nil c (a ++ b) hc (by rw [hsub, h3]),
            splitNl_cons_nil c ((splitNl a).2 ++ b) hc h3]
          rw [hsub]
          simp
        | cons l ls =>
          rw [splitNl_cons_cons c (a ++ b) l ls hc (by rw [hsub, h3]),
            splitNl_cons_cons c ((splitNl a).2 ++ b) l ls hc h3]
          rw [hsub]
          simp
      | cons l ls =>
        rw [List.cons_append, splitNl_cons_cons c a l ls hc h2]
        have hsub := ih b
        rw [h2] at hsub
        rw [splitNl_cons_cons c (a ++ b) l (ls ++ (splitNl ((splitNl a).2 ++ b)).1) hc
          (by rw [hsub]; simp)]
        rw [hsub]
        simp

theorem splitNl_line (l : List Char) (h : ∀ c ∈ l, ¬ c = nlCh) :
    splitNl (l ++ [nlCh]) = ([l], []) := by
  induction l with
  | nil =>
    rw [List.nil_append, splitNl_cons_nl]
    rfl
  | cons c l ih =>
    have hc : ¬ c = nlCh := h c (by simp)
    have ih2 := ih (fun d hd => h d (by simp [hd]))
    rw [List.cons_append, splitNl_cons_cons c (l ++ [nlCh]) l [] hc (by rw [ih2]), ih2]

theorem splitNl_mkStream (lines : List (List Char))
    (h : ∀ l ∈ lines, ∀ c ∈ l, ¬ c = nlCh) :
    splitNl (mkStream lines) = (lines, []) := by
  induction lines with
  | nil => rfl
  | cons l ls ih =>
    have hline := splitNl_line l (h l (by simp))
    have ihp := ih (fun l2 hl2 => h l2 (by simp [hl2]))
    rw [show mkStream (l :: ls) = (l ++ [nlCh]) ++ mkStream ls from by
      simp [mkStream]]
    rw [splitNl_append, hline]
    simp only [List.nil_append]
    rw [ihp]
    simp

/-! ## Line processing -/

theorem processLine_emit_chunk (l : List Char) (c : CB) (h : processLine l = .emit c) :
    ∃ s, c = CB.chunk s := by
  rw [processLine] at h
  split_ifs at h with h1
  · revert h
    cases jsonParse (l.drop 6) with
    | none => intro h; exact absurd h (by simp)
    | some data =>
      intro h
      dsimp only at h
      unfold processParsed at h
      split_ifs at h
      · obtain rfl := LineResult.emit.inj h
        exact ⟨_, rfl⟩
      · obtain rfl := LineResult.emit.inj h
        exact ⟨_, rfl⟩

theorem processLine_terminal_term (l : List Char) (c : CB) (h : processLine l = .terminal c) :
    isTerminalCB c = true := by
  rw [processLine] at h
  split_ifs at h with h1
  · revert h
    cases jsonParse (l.drop 6) with
    | none => intro h; exact absurd h (by simp)
    | some data =>
      intro h
      dsimp only at h
      unfold processParsed at h
      split_ifs at h
      · obtain rfl := LineResult.terminal.inj h
        rfl
      · obtain rfl := LineResult.terminal.inj h
        rfl

theorem processLines_append : ∀ a b : List (List Char),
    processLines (a ++ b)
      = if (processLines a).2 then processLines a
        else ((processLines a).1 ++ (processLines b).1, (processLines b).2) := by
  intro a
  induction a with
  | nil => intro b; simp [processLines]
  | cons l a ih =>
    intro b
    rw [List.cons_append, processLines, processLines]
    cases hpl : processLine l with
    | ignore => exact ih b
    | emit c =>
      rw [ih b]
      by_cases ha : (processLines a).2
      · simp [ha]
      · simp [ha]
    | terminal c => simp

theorem processLines_structure : ∀ ls : List (List Char),
    ((processLines ls).2 = false → ∀ c ∈ (processLines ls).1, isTerminalCB c = false) ∧
    ((processLines ls).2 = true → ∃ pre t, (processLines ls).1 = pre ++ [t] ∧
      isTerminalCB t = true ∧ ∀ c ∈ pre, isTerminalCB c = false) := by
  intro ls
  induction ls with
  | nil =>
    refine ⟨fun _ c hc => absurd hc (by simp [processLines]), fun h => absurd h (by simp [processLines])⟩
  | cons l ls ih =>
    rw [processLines]
    cases hpl : processLine l with
    | ignore => exact ih
    | emit c =>
      obtain ⟨s, rfl⟩ := processLine_emit_chunk l c hpl
      refine ⟨fun hf d hd => ?_, fun ht => ?_⟩
      · rcases List.mem_cons.mp hd with rfl | hd
        · rfl
        · exact ih.1 hf d hd
      · obtain ⟨pre, t, hpre, htt, hall⟩ := ih.2 ht
        refine ⟨CB.chunk s :: pre, t, by simp [hpre], htt, fun d hd => ?_⟩
        rcases List.mem_cons.mp hd with rfl | hd
        · rfl
        · exact hall d hd
    | terminal c =>
      refine ⟨fun hf => absurd hf (by simp), fun _ => ⟨[], c, by simp,
        processLine_terminal_term l c hpl, fun d hd => absurd hd (by simp)⟩⟩

/-! ## The chunk loop -/

theorem runChunksAux_cons (buf c : List Char) (cs : List (List Char)) :
    runChunksAux buf (c :: cs)
      = (if (processLines (splitNl (buf ++ c)).1).2
          then ((processLines (splitNl (buf ++ c)).1).1, true)
          else ((processLines (splitNl (buf ++ c)).1).1
              ++ (runChunksAux (splitNl (buf ++ c)).2 cs).1,
            (runChunksAux (splitNl (buf ++ c)).2 cs).2)) := by
  rw [runChunksAux]

theorem runChunksAux_merge (buf c1 c2 : List Char) (cs : List (List Char)) :
    runChunksAux buf (c1 :: c2 :: cs) = runChunksAux buf ((c1 ++ c2) :: cs) := by
  rw [runChunksAux_cons buf c1 (c2 :: cs), runChunksAux_cons (splitNl (buf ++ c1)).2 c2 cs,
    runChunksAux_cons buf (c1 ++ c2) cs,
    show buf ++ (c1 ++ c2) = (buf ++ c1) ++ c2 from (List.append_assoc buf c1 c2).symm,
    splitNl_append (buf ++ c1) c2, processLines_append]
  by_cases h1 : (processLines (splitNl (buf ++ c1)).1).2
  · simp [h1]
  · simp only [h1, if_false]
    by_cases h2 : (processLines (splitNl ((splitNl (buf ++ c1)).2 ++ c2)).1).2
    · simp [h2]
    · simp only [h2, if_false]
      simp

theorem streamAgentResponse_flattenAux : ∀ cs : List (List Char), ∀ c : List Char,
    runChunksAux [] (c :: cs) = runChunksAux [] [c ++ cs.flatten] := by
  intro cs
  induction cs with
  | nil => intro c; rw [List.flatten_nil, List.append_nil]
  | cons c2 cs ih =>
    intro c
    rw [runChunksAux_merge, ih (c ++ c2), List.flatten_cons, List.append_assoc]

theorem streamAgentResponse_flatten (cs : List (List Char)) :
    streamAgentResponse cs = streamAgentResponse [cs.flatten] := by
  cases cs with
  | nil => rfl
  | cons c cs =>
    rw [streamAgentResponse, streamAgentResponse, List.flatten_cons,
      streamAgentResponse_flattenAux cs c]

theorem runChunksAux_term_append : ∀ cs : List (List Char), ∀ buf extra,
    (runChunksAux buf cs).2 = true →
      runChunksAux buf (cs ++ extra) = runChunksAux buf cs := by
  intro cs
  induction cs with
  | nil => intro buf extra h; exact absurd h (by simp [runChunksAux])
  | cons c cs ih =>
    intro buf extra h
    rw [runChunksAux] at h ⊢
    rw [List.cons_append, runChunksAux]
    by_cases h1 : (processLines (splitNl (buf ++ c)).1).2
    · simp [h1]
    · simp only [h1, if_false] at h ⊢
      rw [ih _ extra (by simpa using h)]

theorem runChunksAux_structure : ∀ cs : List (List Char), ∀ buf,
    ((runChunksAux buf cs).2 = false →
      ∀ c ∈ (runChunksAux buf cs).1, isTerminalCB c = false) ∧
    ((runChunksAux buf cs).2 = true → ∃ pre t, (runChunksAux buf cs).1 = pre ++ [t] ∧
      isTerminalCB t = true ∧ ∀ c ∈ pre, isTerminalCB c = false) := by
  intro cs
  induction cs with
  | nil =>
    intro buf
    refine ⟨fun _ c hc => absurd hc (by simp [runChunksAux]),
      fun h => absurd h (by simp [runChunksAux])⟩
  | cons c cs ih =>
    intro buf
    rw [runChunksAux]
    by_cases h1 : (processLines (splitNl (buf ++ c)).1).2
    · simp only [h1, if_true]
      refine ⟨fun hf => absurd hf (by simp), fun _ => ?_⟩
      exact (processLines_structure (splitNl (buf ++ c)).1).2 h1
    · simp only [h1, if_false]
      refine ⟨fun hf d hd => ?_, fun ht => ?_⟩
      · rcases List.mem_append.mp hd with hd | hd
        · exact (processLines_structure (splitNl (buf ++ c)).1).1 (by simpa using h1) d hd
        · exact (ih (splitNl (buf ++ c)).2).1 (by simpa using hf) d hd
      · obtain ⟨pre, t, hpre, htt, hall⟩ := (ih (splitNl (buf ++ c)).2).2 (by simpa using ht)
        refine ⟨(processLines (splitNl (buf ++ c)).1).1 ++ pre, t, by simp [hpre], htt,
          fun d hd => ?_⟩
        rcases List.mem_append.mp hd with hd | hd
        · exact (processLines_structure (splitNl (buf ++ c)).1).1 (by simpa using h1) d hd
        · exact hall d hd

theorem streamAgentResponse_terminal_last (cs : List (List Char)) :
    ∃ pre t, streamAgentResponse cs = pre ++ [t] ∧ isTerminalCB t = true ∧
      ∀ c ∈ pre, isTerminalCB c = false := by
  rw [streamAgentResponse]
  by_cases h : (runChunksAux [] cs).2
  · simp only [h, if_true]
    exact (runChunksAux_structure cs []).2 h
  · simp only [h, if_false]
    exact ⟨(runChunksAux [] cs).1, CB.complete, rfl, rfl,
      (runChunksAux_structure cs []).1 (by simpa using h)⟩

theorem streamAgentResponse_frozen (cs extra : List (List Char))
    (h : (runChunksAux [] cs).2 = true) :
    streamAgentResponse (cs ++ extra) = streamAgentResponse cs := by
  rw [streamAgentResponse, streamAgentResponse, runChunksAux_term_append cs [] extra h]

/-! ## Wire frames -/

theorem dataTag_isPrefixOf_frameLine (j : Json) :
    dataTag.isPrefixOf (frameLineOf j) = true := by
  rw [frameLineOf]
  exact List.isPrefixOf_iff_prefix.mpr (List.prefix_append _ _)

theorem frameLine_drop (j : Json) : (frameLineOf j).drop 6 = stringify j := by
  rw [frameLineOf, show (6 : Nat) = dataTag.length from rfl, List.drop_left]

theorem processLine_frameLine (j : Json) (hwf : wfJson j = true) :
    processLine (frameLineOf j) = processParsed j := by
  rw [processLine, if_pos (by rw [dataTag_isPrefixOf_frameLine]), frameLine_drop,
    jsonParse_stringify j hwf]

theorem frameLine_no_nl (j : Json) : ∀ c ∈ frameLineOf j, ¬ c = nlCh := by
  intro c hc
  rw [frameLineOf] at hc
  rcases List.mem_append.mp hc with hc | hc
  · exact (by decide : ∀ c ∈ dataTag, ¬ c = nlCh) c hc
  · exact stringify_no_nl j c hc

theorem wf_tokenObj (s : List Char) :
    wfJson (Json.obj [(typeKey, Json.str tokenK), (contentKey, Json.str s)]) = true := rfl

theorem processParsed_token (s : List Char) :
    processParsed (Json.obj [(typeKey, Json.str tokenK), (contentKey, Json.str s)])
      = if s.isEmpty then .ignore else .emit (.chunk s) := by
  cases s <;> rfl

theorem processLine_tokenLine (s : List Char) :
    processLine (tokenLine s) = if s.isEmpty then .ignore else .emit (.chunk s) := by
  rw [tokenLine, processLine_frameLine _ (wf_tokenObj s), processParsed_token]

theorem processLines_tokenLines (ss : List (List Char)) :
    (processLines (ss.map tokenLine)).2 = false ∧
    textOf (processLines (ss.map tokenLine)).1 = ss.flatten := by
  induction ss with
  | nil => exact ⟨rfl, rfl⟩
  | cons s ss ih =>
    rw [List.map_cons, processLines, processLine_tokenLine]
    cases s with
    | nil =>
      rw [if_pos (show ([] : List Char).isEmpty = true from rfl)]
      refine ⟨ih.1, ?_⟩
      rw [List.flatten_cons, List.nil_append]
      exact ih.2
    | cons c s =>
      rw [if_neg (by simp)]
      dsimp only
      refine ⟨ih.1, ?_⟩
      rw [textOf, List.flatten_cons, ih.2]

/-! ## The `useSSE` chunk handler -/

theorem runCallbacks_append (st : HookState) (a b : List CB) :
    runCallbacks st (a ++ b) = runCallbacks (runCallbacks st a) b := by
  induction a generalizing st with
  | nil => rfl
  | cons c a ih =>
    cases c <;> (rw [List.cons_append, runCallbacks, runCallbacks]; exact ih _)

theorem handleChunk_text (st : HookState) (chunk : List Char)
    (h : eventTag.isPrefixOf chunk = false) :
    handleChunk st chunk = { st with message := st.message ++ chunk } := by
  rw [handleChunk, if_neg (by rw [h]; exact Bool.false_ne_true)]

theorem takeWhile_all_cons (p : Char → Bool) :
    ∀ (k : List Char) (b : Char) (r : List Char),
      (∀ c ∈ k, p c = true) → p b = false → (k ++ b :: r).takeWhile p = k := by
  intro k
  induction k with
  | nil =>
    intro b r _ hb
    rw [List.nil_append, List.takeWhile_cons, hb]
    rfl
  | cons c k ih =>
    intro b r hk hb
    rw [List.cons_append, List.takeWhile_cons, hk c (by simp),
      ih b r (fun d hd => hk d (by simp [hd])) hb]
    rfl

theorem eventMatch_spec (k payload : List Char) (hk : k ≠ [])
    (hkr : ∀ c ∈ k, ¬ c = rbrack) (hp : payload ≠ [])
    (hplt : ∀ c ∈ payload, isLineTerm c = false) :
    eventMatch (eventTag ++ (k ++ rbrack :: payload)) = some (k, payload) := by
  have hdrop : (eventTag ++ (k ++ rbrack :: payload)).drop 7 = k ++ rbrack :: payload := by
    rw [show (7 : Nat) = eventTag.length from rfl, List.drop_left]
  have htake : (k ++ rbrack :: payload).takeWhile (fun c => c != rbrack) = k :=
    takeWhile_all_cons _ k rbrack payload (fun c hc => by simpa using hkr c hc) (by simp)
  have hdrop2 : (k ++ rbrack :: payload).drop k.length = rbrack :: payload :=
    List.drop_left _ _
  have h1 : k.isEmpty = false := by
    cases k with
    | nil => exact absurd rfl hk
    | cons c k => rfl
  have h2 : payload.isEmpty = false := by
    cases payload with
    | nil => exact absurd rfl hp
    | cons c p => rfl
  have h3 : payload.any isLineTerm = false := List.any_eq_false.mpr (fun c hc => by
    rw [hplt c hc]; exact Bool.false_ne_true)
  rw [eventMatch,
    if_pos (by rw [List.isPrefixOf_iff_prefix.mpr (List.prefix_append _ _)])]
  dsimp only
  rw [hdrop, htake, hdrop2]
  dsimp only
  simp [h1, h2, h3]

theorem mkToolCall_obj (k : List Char) (fs : List (List Char × Json))
    (hno : hasKey fs typeKey = false) (hnd : nodupKeys fs = true) :
    mkToolCall k (Json.obj ((typeKey, Json.str k) :: fs)) = (typeKey, Json.str k) :: fs := by
  rw [mkToolCall, spreadInto,
    show upsert [(typeKey, Json.str k)] typeKey (Json.str k) = [(typeKey, Json.str k)] from by
      rw [upsert]; simp,
    spreadInto_fresh fs [(typeKey, Json.str k)] ?_ hnd]
  · rfl
  · intro key hkey
    rw [show hasKey [(typeKey, Json.str k)] key = (decide (typeKey = key) || false) from rfl]
    simp only [Bool.or_false, decide_eq_false_iff_not]
    intro hkk
    rw [← hkk] at hkey
    rw [hkey] at hno
    exact absurd hno (by simp)

theorem wf_toolObj (k : List Char) (fs : List (List Char × Json))
    (hno : hasKey fs typeKey = false) (hnd : nodupKeys fs = true) (hwf : wfObj fs = true) :
    wfJson (Json.obj ((typeKey, Json.str k) :: fs)) = true := by
  rw [show wfJson (Json.obj ((typeKey, Json.str k) :: fs))
    = (nodupKeys ((typeKey, Json.str k) :: fs) && wfObj ((typeKey, Json.str k) :: fs)) from rfl]
  rw [show nodupKeys ((typeKey, Json.str k) :: fs)
    = (!hasKey fs typeKey && nodupKeys fs) from rfl]
  rw [show wfObj ((typeKey, Json.str k) :: fs) = (wfJson (Json.str k) && wfObj fs) from rfl]
  simp [hno, hnd, hwf, show wfJson (Json.str k) = true from rfl]

theorem noU28_toolObj (k : List Char) (fs : List (List Char × Json))
    (hk : (!k.any isU28) = true) (hfs : objNoU28 fs = true) :
    jsonNoU28 (Json.obj ((typeKey, Json.str k) :: fs)) = true := by
  rw [show jsonNoU28 (Json.obj ((typeKey, Json.str k) :: fs))
    = (!typeKey.any isU28 && jsonNoU28 (Json.str k) && objNoU28 fs) from rfl]
  rw [show jsonNoU28 (Json.str k) = !k.any isU28 from rfl]
  simp [hk, hfs]
  decide

theorem processParsed_tool (k : List Char) (fs : List (List Char × Json))
    (hk6 : k ∈ sixKinds) :
    processParsed (Json.obj ((typeKey, Json.str k) :: fs))
      = .emit (.chunk (eventTag
          ++ (k ++ rbrack :: stringify (Json.obj ((typeKey, Json.str k) :: fs))))) := by
  simp only [sixKinds, List.mem_cons, List.not_mem_nil, or_false] at hk6
  rcases hk6 with rfl | rfl | rfl | rfl | rfl | rfl <;> rfl

theorem stringify_obj_ne_nil (fs : List (List Char × Json)) :
    stringify (Json.obj fs) ≠ [] := by
  rw [show stringify (Json.obj fs) = lbrace :: stringifyFields fs ++ [rbrace] from rfl]
  simp

theorem handleChunk_tool (st : HookState) (k : List Char) (fs : List (List Char × Json))
    (hk6 : k ∈ sixKinds) (hno : hasKey fs typeKey = false) (hnd : nodupKeys fs = true)
    (hwf : wfObj fs = true) (hu : objNoU28 fs = true) :
    handleChunk st (eventTag ++ (k ++ rbrack :: stringify (Json.obj ((typeKey, Json.str k) :: fs))))
      = { st with toolCalls := st.toolCalls ++ [Json.obj ((typeKey, Json.str k) :: fs)] } := by
  have hk28 : (!k.any isU28) = true := by
    simp only [sixKinds, List.mem_cons, List.not_mem_nil, or_false] at hk6
    rcases hk6 with rfl | rfl | rfl | rfl | rfl | rfl <;> decide
  have hkne : k ≠ [] := by
    simp only [sixKinds, List.mem_cons, List.not_mem_nil, or_false] at hk6
    rcases hk6 with rfl | rfl | rfl | rfl | rfl | rfl <;> decide
  have hkr : ∀ c ∈ k, ¬ c = rbrack := by
    simp only [sixKinds, List.mem_cons, List.not_mem_nil, or_false] at hk6
    rcases hk6 with rfl | rfl | rfl | rfl | rfl | rfl <;> decide
  rw [handleChunk,
    if_pos (by rw [List.isPrefixOf_iff_prefix.mpr (List.prefix_append _ _)]),
    eventMatch_spec k _ hkne hkr (stringify_obj_ne_nil _)
      (stringify_noLT _ (noU28_toolObj k fs hk28 hu))]
  dsimp only
  rw [jsonParse_stringify _ (wf_toolObj k fs hno hnd hwf)]
  dsimp only
  rw [mkToolCall_obj k fs hno hnd]

theorem sar_lines (lines : List (List Char))
    (hnl : ∀ l ∈ lines, ∀ c ∈ l, ¬ c = nlCh)
    (hterm : (processLines lines).2 = false) :
    streamAgentResponse [mkStream lines] = (processLines lines).1 ++ [CB.complete] := by
  rw [streamAgentResponse, runChunksAux_cons, List.nil_append, splitNl_mkStream lines hnl]
  dsimp only
  simp only [hterm, if_false, Bool.false_eq_true]
  rw [show runChunksAux ([] : List Char) ([] : List (List Char)) = ([], false) from rfl]
  simp

theorem specLine_no_nl (f : SpecFrame) : ∀ c ∈ specLine f, ¬ c = nlCh := by
  cases f with
  | tok s => exact frameLine_no_nl _
  | tool k fs => exact frameLine_no_nl _

theorem runFrames : ∀ frames : List SpecFrame, (∀ f ∈ frames, frameOk f) →
    (processLines (frames.map specLine)).2 = false ∧
    ∀ st : HookState,
      (runCallbacks st (processLines (frames.map specLine)).1).message
          = st.message ++ tokText frames ∧
      (runCallbacks st (processLines (frames.map specLine)).1).toolCalls
          = st.toolCalls ++ toolObjs frames ∧
      (runCallbacks st (processLines (frames.map specLine)).1).error = st.error ∧
      (runCallbacks st (processLines (frames.map specLine)).1).isStreaming = st.isStreaming := by
  intro frames
  induction frames with
  | nil =>
    intro _
    exact ⟨rfl, fun st => by simp [processLines, runCallbacks, tokText, toolObjs]⟩
  | cons f frames ih =>
    intro hok
    have hokf : frameOk f := hok f (by simp)
    obtain ⟨iht, ihr⟩ := ih (fun g hg => hok g (by simp [hg]))
    cases f with
    | tok s =>
      rw [List.map_cons, show specLine (SpecFrame.tok s) = tokenLine s from rfl,
        processLines, processLine_tokenLine]
      cases s with
      | nil =>
        rw [if_pos (show ([] : List Char).isEmpty = true from rfl)]
        refine ⟨iht, fun st => ?_⟩
        obtain ⟨h1, h2, h3, h4⟩ := ihr st
        refine ⟨?_, ?_, h3, h4⟩
        · rw [h1, show tokText (SpecFrame.tok [] :: frames) = tokText frames from rfl]
        · rw [h2, show toolObjs (SpecFrame.tok [] :: frames) = toolObjs frames from rfl]
      | cons c0 s0 =>
        rw [if_neg (by simp)]
        dsimp only
        refine ⟨iht, fun st => ?_⟩
        rw [runCallbacks,
          handleChunk_text st (c0 :: s0) (by
            rw [show frameOk (SpecFrame.tok (c0 :: s0))
              = (eventTag.isPrefixOf (c0 :: s0) = false) from rfl] at hokf
            exact hokf)]
        obtain ⟨h1, h2, h3, h4⟩ := ihr { st with message := st.message ++ (c0 :: s0) }
        refine ⟨?_, ?_, h3, h4⟩
        · rw [h1]
          simp [tokText]
        · rw [h2]
          simp [toolObjs]
    | tool k fs =>
      rw [show frameOk (SpecFrame.tool k fs)
        = (k ∈ sixKinds ∧ hasKey fs typeKey = false ∧ nodupKeys fs = true ∧
            wfObj fs = true ∧ objNoU28 fs = true) from rfl] at hokf
      obtain ⟨hk6, hno, hnd, hwf, hu⟩ := hokf
      rw [List.map_cons, show specLine (SpecFrame.tool k fs) = toolLine k fs from rfl,
        processLines, show toolLine k fs
          = frameLineOf (Json.obj ((typeKey, Json.str k) :: fs)) from rfl,
        processLine_frameLine _ (wf_toolObj k fs hno hnd hwf), processParsed_tool k fs hk6]
      dsimp only
      refine ⟨iht, fun st => ?_⟩
      rw [runCallbacks, handleChunk_tool st k fs hk6 hno hnd hwf hu]
      obtain ⟨h1, h2, h3, h4⟩ :=
        ihr { st with toolCalls := st.toolCalls ++ [Json.obj ((typeKey, Json.str k) :: fs)] }
      refine ⟨?_, ?_, h3, h4⟩
      · rw [h1]
        simp [tokText]
      · rw [h2]
        simp [toolObjs]

/-! ## Cache-layer lemmas -/

theorem wf_entryJson (D : Json) (T : Int) (hwf : wfJson D = true) :
    wfJson (entryJson D T) = true := by
  have h1 : hasKey [(timestampKey, Json.num T)] dataKey = false := by
    rw [hasKey]
    rw [show (decide (timestampKey = dataKey) : Bool) = false from by decide]
    rfl
  rw [entryJson,
    show wfJson (Json.obj [(dataKey, D), (timestampKey, Json.num T)])
      = (nodupKeys [(dataKey, D), (timestampKey, Json.num T)]
        && wfObj [(dataKey, D), (timestampKey, Json.num T)]) from rfl,
    show wfObj [(dataKey, D), (timestampKey, Json.num T)]
      = (wfJson D && (wfJson (Json.num T) && wfObj [])) from rfl,
    show nodupKeys [(dataKey, D), (timestampKey, Json.num T)]
      = (!hasKey [(timestampKey, Json.num T)] dataKey
          && nodupKeys [(timestampKey, Json.num T)]) from rfl,
    h1, hwf]
  rfl

theorem loadFromCache_entry (s : Storage) (D : Json) (T now : Int)
    (hc : s.contents = some (stringify (entryJson D T))) (hg : s.getThrows = false)
    (hwf : wfJson D = true) :
    loadFromCache s now = if now - T < CACHE_TTL then some D else none := by
  have hne : (stringify (entryJson D T)).isEmpty = false := by
    have h := stringify_obj_ne_nil [(dataKey, D), (timestampKey, Json.num T)]
    rw [entryJson]
    cases he : stringify (Json.obj [(dataKey, D), (timestampKey, Json.num T)]) with
    | nil => exact absurd he h
    | cons c t => rfl
  have hstep : loadFromCache s now
      = (match jsonParse (stringify (entryJson D T)) with
         | none => none
         | some entry =>
           match getField entry timestampKey with
           | some (Json.num t) =>
             if now - t < CACHE_TTL then getField entry dataKey else none
           | _ => none) := by
    rw [loadFromCache, if_neg (by rw [hg]; exact Bool.false_ne_true), hc]
    simp only [hne]
    rfl
  rw [hstep, jsonParse_stringify _ (wf_entryJson D T hwf)]
  rfl

theorem fetchPhaseA_issued (f : Bool) (now : Int) (st : CompState)
    (h : (fetchPhaseA f now st).2 = true) :
    (fetchPhaseA f now st).1
      = { st with isFetching := true, loading := true, error := none } := by
  rw [fetchPhaseA] at h ⊢
  split_ifs at h ⊢ with h1 h2
  · exfalso
    revert h
    cases loadFromCache st.storage now with
    | none => exact fun hx => absurd hx (by simp)
    | some cached => exact fun hx => absurd hx (by simp)
  · rfl

theorem invalidatePhaseA_issues (now : Int) (st : CompState) :
    (invalidatePhaseA now st).2 = true := by
  rw [invalidatePhaseA, fetchPhaseA]
  simp

theorem textOf_append : ∀ a b : List CB, textOf (a ++ b) = textOf a ++ textOf b := by
  intro a
  induction a with
  | nil => intro b; rfl
  | cons c a ih =>
    intro b
    cases c with
    | chunk s => rw [List.cons_append, textOf, textOf, ih, List.append_assoc]
    | errorC m => rw [List.cons_append, textOf, textOf, ih]
    | complete => rw [List.cons_append, textOf, textOf, ih]

/-! ## The claims -/

/-- C1: for any fixed sequence of complete frames, the decoded callback
sequence is independent of how the raw stream is split into network
chunks, and when the frames are token frames whose contents concatenate
to `S`, the accumulated text equals exactly `S`. -/
theorem claim1 (cs cs2 ss : List (List Char))
    (hsplit : cs.flatten = cs2.flatten)
    (htok : cs.flatten = (ss.map tokenFrame).flatten) :
    streamAgentResponse cs = streamAgentResponse cs2 ∧
    textOf (streamAgentResponse cs) = ss.flatten := by
  have h1 : streamAgentResponse cs = streamAgentResponse cs2 := by
    rw [streamAgentResponse_flatten cs, streamAgentResponse_flatten cs2, hsplit]
  refine ⟨h1, ?_⟩
  rw [streamAgentResponse_flatten cs, htok]
  have hmk : (ss.map tokenFrame).flatten = mkStream (ss.map tokenLine) := by
    rw [mkStream, List.map_map]
    rfl
  rw [hmk, sar_lines (ss.map tokenLine)
    (by
      intro l hl c hc
      obtain ⟨s, hs, rfl⟩ := List.mem_map.mp hl
      exact frameLine_no_nl _ c hc)
    (processLines_tokenLines ss).1]
  rw [textOf_append, (processLines_tokenLines ss).2]
  simp [textOf]

theorem claim1_witness :
    streamAgentResponse
        [((["Hel".toList, "lo".toList].map tokenFrame).flatten).take 25,
         ((["Hel".toList, "lo".toList].map tokenFrame).flatten).drop 25]
      = streamAgentResponse [(["Hel".toList, "lo".toList].map tokenFrame).flatten] ∧
    textOf (streamAgentResponse
        [((["Hel".toList, "lo".toList].map tokenFrame).flatten).take 25,
         ((["Hel".toList, "lo".toList].map tokenFrame).flatten).drop 25])
      = "Hello".toList := by
  have h := claim1
    [((["Hel".toList, "lo".toList].map tokenFrame).flatten).take 25,
     ((["Hel".toList, "lo".toList].map tokenFrame).flatten).drop 25]
    [(["Hel".toList, "lo".toList].map tokenFrame).flatten]
    ["Hel".toList, "lo".toList]
    (by decide) (by decide)
  exact ⟨h.1, h.2.trans (by decide)⟩

/-- C2 (amended): token frames feed only the text buffer and tool-event
frames feed only the tool-event log, in arrival order — provided each
token content does not itself begin with the in-band marker
`[EVENT:` (the original claim, quantified over all token contents,
fails: see the counterexample). -/
theorem claim2 (frames : List SpecFrame) (st : HookState)
    (hok : ∀ f ∈ frames, frameOk f) :
    (runCallbacks st (streamAgentResponse [mkStream (frames.map specLine)])).message
        = st.message ++ tokText frames ∧
    (runCallbacks st (streamAgentResponse [mkStream (frames.map specLine)])).toolCalls
        = st.toolCalls ++ toolObjs frames := by
  obtain ⟨hterm, hrun⟩ := runFrames frames hok
  have hnl : ∀ l ∈ frames.map specLine, ∀ c ∈ l, ¬ c = nlCh := by
    intro l hl c hc
    obtain ⟨f, hf, rfl⟩ := List.mem_map.mp hl
    exact specLine_no_nl f c hc
  rw [sar_lines (frames.map specLine) hnl hterm, runCallbacks_append]
  obtain ⟨h1, h2, h3, h4⟩ := hrun st
  constructor
  · rw [show (runCallbacks (runCallbacks st (processLines (frames.map specLine)).1)
        [CB.complete]).message
      = (runCallbacks st (processLines (frames.map specLine)).1).message from rfl]
    exact h1
  · rw [show (runCallbacks (runCallbacks st (processLines (frames.map specLine)).1)
        [CB.complete]).toolCalls
      = (runCallbacks st (processLines (frames.map specLine)).1).toolCalls from rfl]
    exact h2

theorem claim2_witness :
    (runCallbacks initHookState (streamAgentResponse
        [mkStream ([SpecFrame.tok "Hi".toList,
            SpecFrame.tool "tool_call_start".toList
              [("tool".toList, Json.str "web".toList)]].map specLine)])).message
      = "Hi".toList ∧
    (runCallbacks initHookState (streamAgentResponse
        [mkStream ([SpecFrame.tok "Hi".toList,
            SpecFrame.tool "tool_call_start".toList
              [("tool".toList, Json.str "web".toList)]].map specLine)])).toolCalls
      = [Json.obj [(typeKey, Json.str "tool_call_start".toList),
          ("tool".toList, Json.str "web".toList)]] := by
  have h := claim2
    [SpecFrame.tok "Hi".toList,
     SpecFrame.tool "tool_call_start".toList [("tool".toList, Json.str "web".toList)]]
    initHookState
    (by
      intro f hf
      rcases List.mem_cons.mp hf with rfl | hf
      · exact (by decide : eventTag.isPrefixOf ("Hi".toList) = false)
      · rcases List.mem_cons.mp hf with rfl | hf
        · exact ⟨by decide, by decide, by decide, by decide, by decide⟩
        · exact absurd hf (List.not_mem_nil f))
  exact ⟨h.1.trans rfl, h.2.trans rfl⟩

theorem claim2_counterexample :
    (runCallbacks initHookState (streamAgentResponse
        [mkStream [tokenLine (eventTag ++ [Char.ofNat 120, rbrack]
          ++ stringify (Json.obj []))]])).message = [] ∧
    (runCallbacks initHookState (streamAgentResponse
        [mkStream [tokenLine (eventTag ++ [Char.ofNat 120, rbrack]
          ++ stringify (Json.obj []))]])).toolCalls.length = 1 :=
  ⟨rfl, rfl⟩

/-- C5: once a `done` or `error` frame is processed the stream is
frozen — appending any further chunks changes neither the surfaced
callbacks nor the resulting hook state — and every callback sequence
ends in exactly one terminal event, which is always last. -/
theorem claim5 (cs extra : List (List Char)) :
    ((runChunksAux [] cs).2 = true →
      streamAgentResponse (cs ++ extra) = streamAgentResponse cs ∧
      ∀ st : HookState,
        runCallbacks st (streamAgentResponse (cs ++ extra))
          = runCallbacks st (streamAgentResponse cs)) ∧
    ∃ pre t, streamAgentResponse cs = pre ++ [t] ∧ isTerminalCB t = true ∧
      ∀ c ∈ pre, isTerminalCB c = false :=
  ⟨fun h => ⟨streamAgentResponse_frozen cs extra h,
    fun st => by rw [streamAgentResponse_frozen cs extra h]⟩,
   streamAgentResponse_terminal_last cs⟩

theorem claim5_witness :
    (streamAgentResponse ([mkStream [frameLineOf (Json.obj [(typeKey, Json.str doneK)])]]
          ++ [tokenFrame [Char.ofNat 120]])
        = streamAgentResponse [mkStream [frameLineOf (Json.obj [(typeKey, Json.str doneK)])]] ∧
      ∀ st : HookState,
        runCallbacks st (streamAgentResponse
            ([mkStream [frameLineOf (Json.obj [(typeKey, Json.str doneK)])]]
              ++ [tokenFrame [Char.ofNat 120]]))
          = runCallbacks st (streamAgentResponse
              [mkStream [frameLineOf (Json.obj [(typeKey, Json.str doneK)])]])) ∧
    ∃ pre t,
      streamAgentResponse [mkStream [frameLineOf (Json.obj [(typeKey, Json.str doneK)])]]
        = pre ++ [t] ∧ isTerminalCB t = true ∧ ∀ c ∈ pre, isTerminalCB c = false :=
  ⟨(claim5 [mkStream [frameLineOf (Json.obj [(typeKey, Json.str doneK)])]]
      [tokenFrame [Char.ofNat 120]]).1 (by decide),
   (claim5 [mkStream [frameLineOf (Json.obj [(typeKey, Json.str doneK)])]]
      [tokenFrame [Char.ofNat 120]]).2⟩

/-- C3: the claim fails against the code.  With a stale entry holding
`demoData` (written at 0, read at `CACHE_TTL`), a failing forced fetch
does NOT serve the stale data: the catch-block fallback goes through the
TTL check of `loadFromCache`, which rejects the entry, so the served
sources remain `[]` while the failure message is surfaced.  With no
entry at all, the empty result and the message are served as claimed. -/
theorem claim3_code_bug :
    loadFromCache demoStore CACHE_TTL = none ∧
    nonStorageView (fetchBlogSources true
        { result := Except.error "network down".toList, now := CACHE_TTL }
        (initCompState demoStore))
      = (Json.arr [], false, some "network down".toList, none, false, 1) ∧
    (initCompState demoStore).sources ≠ demoData ∧
    nonStorageView (fetchBlogSources true
        { result := Except.error "network down".toList, now := CACHE_TTL }
        (initCompState emptyStorage))
      = (Json.arr [], false, some "network down".toList, none, false, 1) := by
  refine ⟨rfl, rfl, ?_, rfl⟩
  intro h
  rw [show (initCompState demoStore).sources = Json.arr [] from rfl, demoData] at h
  simp at h

/-- C4 (amended): two immediate `invalidateCache()` calls issue TWO
network fetches, not one — the in-flight guard `isFetching &&
!forceRefresh` is bypassed under forced refresh (see the
counterexample).  The guard does suppress a concurrent non-forced
`fetchBlogSources(false)`, which performs no work and no fetch. -/
theorem claim4 (ctx1 ctx2 ctx3 : NetCtx) (st : CompState) :
    (doubleInvalidate ctx1 ctx2 st).2 = 2 ∧
    (st.isFetching = true → fetchBlogSources false ctx3 st = (st, 0)) := by
  constructor
  · rw [doubleInvalidate]
    dsimp only
    simp [invalidatePhaseA_issues]
  · intro h
    rw [fetchBlogSources, fetchPhaseA]
    simp [h]

theorem claim4_witness :
    (doubleInvalidate
        { result := Except.ok Json.null, now := 0 }
        { result := Except.error [Char.ofNat 101], now := 1 }
        { sources := Json.arr [], loading := false, error := none, lastFetched := none,
          isFetching := true, storage := emptyStorage }).2 = 2 ∧
    fetchBlogSources false { result := Except.ok Json.null, now := 2 }
        { sources := Json.arr [], loading := false, error := none, lastFetched := none,
          isFetching := true, storage := emptyStorage }
      = ({ sources := Json.arr [], loading := false, error := none, lastFetched := none,
             isFetching := true, storage := emptyStorage }, 0) := by
  have h := claim4 { result := Except.ok Json.null, now := 0 }
    { result := Except.error [Char.ofNat 101], now := 1 }
    { result := Except.ok Json.null, now := 2 }
    { sources := Json.arr [], loading := false, error := none, lastFetched := none,
      isFetching := true, storage := emptyStorage }
  exact ⟨h.1, h.2 rfl⟩

theorem claim4_counterexample :
    ¬ ((doubleInvalidate
        { result := Except.ok (Json.obj [(sourcesKey, Json.arr [])]), now := 0 }
        { result := Except.ok (Json.obj [(sourcesKey, Json.arr [])]), now := 1 }
        (initCompState emptyStorage)).2 = 1) := by
  decide

/-- C7: a line without the `data: ` prefix, with an unparseable
payload, or with a type outside the recognized set is silently
discarded: inserting it anywhere into a stream changes neither the
surfaced callbacks nor the resulting hook state, and it never
terminates the stream. -/
theorem claim7 (ln : List Char) (pre post : List (List Char)) (st : HookState)
    (hln : ∀ c ∈ ln, ¬ c = nlCh)
    (hpre : ∀ l ∈ pre, ∀ c ∈ l, ¬ c = nlCh)
    (hpost : ∀ l ∈ post, ∀ c ∈ l, ¬ c = nlCh)
    (h : dataTag.isPrefixOf ln = false ∨ jsonParse (ln.drop 6) = none ∨
      ∃ d, jsonParse (ln.drop 6) = some d ∧ ∀ t ∈ recognizedKinds, typeIs d t = false) :
    processLine ln = .ignore ∧
    streamAgentResponse [mkStream (pre ++ ln :: post)]
      = streamAgentResponse [mkStream (pre ++ post)] ∧
    runCallbacks st (streamAgentResponse [mkStream (pre ++ ln :: post)])
      = runCallbacks st (streamAgentResponse [mkStream (pre ++ post)]) := by
  have hig : processLine ln = .ignore := by
    rcases h with h | h | ⟨d, hd, hall⟩
    · rw [processLine, if_neg (by rw [h]; exact Bool.false_ne_true)]
    · by_cases hp : dataTag.isPrefixOf ln = true
      · rw [processLine, if_pos hp, h]
      · rw [processLine, if_neg hp]
    · by_cases hp : dataTag.isPrefixOf ln = true
      · rw [processLine, if_pos hp, hd]
        have h1 : typeIs d tokenK = false :=
          hall tokenK (List.mem_cons_self _ _)
        have h2 : typeIs d errorK = false :=
          hall errorK (List.mem_cons_of_mem _ (List.mem_cons_self _ _))
        have h3 : typeIs d doneK = false :=
          hall doneK (List.mem_cons_of_mem _ (List.mem_cons_of_mem _ (List.mem_cons_self _ _)))
        have h6 : (sixKinds.any fun k => typeIs d k) = false := by
          rw [List.any_eq_false]
          intro k hk
          simp [hall k (List.mem_cons_of_mem _ (List.mem_cons_of_mem _
            (List.mem_cons_of_mem _ hk)))]
        simp [processParsed, h1, h2, h3, h6]
      · rw [processLine, if_neg hp]
  have hmid : processLines (pre ++ ln :: post) = processLines (pre ++ post) := by
    rw [processLines_append, processLines_append,
      show processLines (ln :: post) = processLines post from by rw [processLines, hig]]
  have hnl1 : ∀ l ∈ pre ++ ln :: post, ∀ c ∈ l, ¬ c = nlCh := by
    intro l hl
    rcases List.mem_append.mp hl with hl | hl
    · exact hpre l hl
    · rcases List.mem_cons.mp hl with rfl | hl
      · exact hln
      · exact hpost l hl
  have hnl2 : ∀ l ∈ pre ++ post, ∀ c ∈ l, ¬ c = nlCh := by
    intro l hl
    rcases List.mem_append.mp hl with hl | hl
    · exact hpre l hl
    · exact hpost l hl
  have hsar : streamAgentResponse [mkStream (pre ++ ln :: post)]
      = streamAgentResponse [mkStream (pre ++ post)] := by
    rw [streamAgentResponse, streamAgentResponse, runChunksAux_cons, runChunksAux_cons,
      List.nil_append, List.nil_append, splitNl_mkStream _ hnl1, splitNl_mkStream _ hnl2]
    dsimp only
    rw [hmid]
  exact ⟨hig, hsar, by rw [hsar]⟩

theorem claim7_witness :
    processLine (frameLineOf (Json.obj [(typeKey, Json.str "mystery".toList)])) = .ignore ∧
    streamAgentResponse [mkStream ([tokenLine "a".toList]
        ++ frameLineOf (Json.obj [(typeKey, Json.str "mystery".toList)]) :: [])]
      = streamAgentResponse [mkStream ([tokenLine "a".toList] ++ [])] ∧
    runCallbacks initHookState (streamAgentResponse
        [mkStream ([tokenLine "a".toList]
          ++ frameLineOf (Json.obj [(typeKey, Json.str "mystery".toList)]) :: [])])
      = runCallbacks initHookState (streamAgentResponse
          [mkStream ([tokenLine "a".toList] ++ [])]) := by
  have h := claim7 (frameLineOf (Json.obj [(typeKey, Json.str "mystery".toList)]))
    [tokenLine "a".toList] [] initHookState
    (by decide) (by decide) (by decide)
    (Or.inr (Or.inr ⟨Json.obj [(typeKey, Json.str "mystery".toList)], rfl, by decide⟩))
  exact h

/-- C8: `sendMessage` aborts any in-flight stream first, resets all
four state cells (empty buffer, empty tool log, error unset, streaming
flag set), and opens exactly one new request, as the last step. -/
theorem claim8 (st : HookState) :
    (runActions st (sendMessage st)).message = [] ∧
    (runActions st (sendMessage st)).error = none ∧
    (runActions st (sendMessage st)).toolCalls = [] ∧
    (runActions st (sendMessage st)).isStreaming = true ∧
    (sendMessage st).count HookAction.openRequest = 1 ∧
    (sendMessage st).getLast? = some HookAction.openRequest ∧
    (st.hasController = true → (sendMessage st).head? = some HookAction.abortReq) ∧
    (st.hasController = false → HookAction.abortReq ∉ sendMessage st) := by
  cases h : st.hasController with
  | true =>
    rw [sendMessage, if_pos (by rw [h])]
    refine ⟨rfl, rfl, rfl, rfl, rfl, rfl, fun _ => rfl, fun hc => ?_⟩
    exact absurd hc (by decide)
  | false =>
    rw [sendMessage, if_neg (by rw [h]; exact Bool.false_ne_true)]
    refine ⟨rfl, rfl, rfl, rfl, rfl, rfl, fun hc => ?_, fun _ => by decide⟩
    exact absurd hc (by decide)

theorem claim8_witness :
    (runActions
        { message := [Char.ofNat 111], isStreaming := false, error := some [Char.ofNat 101],
          toolCalls := [Json.null], hasController := true }
        (sendMessage
          { message := [Char.ofNat 111], isStreaming := false, error := some [Char.ofNat 101],
            toolCalls := [Json.null], hasController := true })).message = [] ∧
    (runActions
        { message := [Char.ofNat 111], isStreaming := false, error := some [Char.ofNat 101],
          toolCalls := [Json.null], hasController := true }
        (sendMessage
          { message := [Char.ofNat 111], isStreaming := false, error := some [Char.ofNat 101],
            toolCalls := [Json.null], hasController := true })).error = none ∧
    (runActions
        { message := [Char.ofNat 111], isStreaming := false, error := some [Char.ofNat 101],
          toolCalls := [Json.null], hasController := true }
        (sendMessage
          { message := [Char.ofNat 111], isStreaming := false, error := some [Char.ofNat 101],
            toolCalls := [Json.null], hasController := true })).toolCalls = [] ∧
    (runActions
        { message := [Char.ofNat 111], isStreaming := false, error := some [Char.ofNat 101],
          toolCalls := [Json.null], hasController := true }
        (sendMessage
          { message := [Char.ofNat 111], isStreaming := false, error := some [Char.ofNat 101],
            toolCalls := [Json.null], hasController := true })).isStreaming = true ∧
    (sendMessage
        { message := [Char.ofNat 111], isStreaming := false, error := some [Char.ofNat 101],
          toolCalls := [Json.null], hasController := true }).count HookAction.openRequest = 1 ∧
    (sendMessage
        { message := [Char.ofNat 111], isStreaming := false, error := some [Char.ofNat 101],
          toolCalls := [Json.null], hasController := true }).getLast?
      = some HookAction.openRequest ∧
    (sendMessage
        { message := [Char.ofNat 111], isStreaming := false, error := some [Char.ofNat 101],
          toolCalls := [Json.null], hasController := true }).head?
      = some HookAction.abortReq := by
  have h := claim8
    { message := [Char.ofNat 111], isStreaming := false, error := some [Char.ofNat 101],
      toolCalls := [Json.null], hasController := true }
  exact ⟨h.1, h.2.1, h.2.2.1, h.2.2.2.1, h.2.2.2.2.1, h.2.2.2.2.2.1, h.2.2.2.2.2.2.1 rfl⟩

/-- C6: a `load(false)` over an entry written at `T` with data `D`
serves `D` with zero network calls while `now - T < CACHE_TTL`; once
the window has passed it issues exactly one fetch and, on success,
serves the response sources, records the fetch time, and overwrites
the cache entry with the new data and timestamp. -/
theorem claim6 (D : List Json) (T : Int) (st : CompState) (ctx : NetCtx)
    (hwf : wfArr D = true)
    (hc : st.storage.contents = some (stringify (entryJson (Json.arr D) T)))
    (hg : st.storage.getThrows = false)
    (hf : st.isFetching = false) :
    (ctx.now - T < CACHE_TTL →
      fetchBlogSources false ctx st
        = ({ st with sources := Json.arr D, loading := false, error := none }, 0)) ∧
    (CACHE_TTL ≤ ctx.now - T → ∀ resp : Json,
      (fetchBlogSources false { result := Except.ok resp, now := ctx.now } st).2 = 1 ∧
      (fetchBlogSources false { result := Except.ok resp, now := ctx.now } st).1.sources
          = jsOrOpt (getField resp sourcesKey) (Json.arr []) ∧
      (fetchBlogSources false { result := Except.ok resp, now := ctx.now } st).1.lastFetched
          = some ctx.now ∧
      (st.storage.setThrows = false →
        (fetchBlogSources false
            { result := Except.ok resp, now := ctx.now } st).1.storage.contents
          = some (stringify (entryJson (jsOrOpt (getField resp sourcesKey) (Json.arr []))
              ctx.now)))) := by
  have hload : ∀ n : Int, loadFromCache st.storage n
      = if n - T < CACHE_TTL then some (Json.arr D) else none := fun n =>
    loadFromCache_entry st.storage (Json.arr D) T n hc hg
      (show wfJson (Json.arr D) = true from hwf)
  constructor
  · intro hfresh
    simp [fetchBlogSources, fetchPhaseA, hf, hload, hfresh, jsTruthyOpt, jsTruthy]
  · intro hstale resp
    have hstale' : ¬ (ctx.now - T < CACHE_TTL) := by omega
    have hA : fetchPhaseA false ctx.now st
        = ({ st with isFetching := true, loading := true, error := none }, true) := by
      rw [fetchPhaseA, hf]
      simp [hload, hstale', jsTruthyOpt]
    have hB : fetchBlogSources false { result := Except.ok resp, now := ctx.now } st
        = (fetchPhaseB { result := Except.ok resp, now := ctx.now }
            { st with isFetching := true, loading := true, error := none }, 1) := by
      rw [fetchBlogSources]
      dsimp only
      rw [hA]
      rfl
    refine ⟨by rw [hB], ?_, by rw [hB]; rfl, ?_⟩
    · rw [hB]
      rfl
    · intro hset
      rw [hB,
        show (fetchPhaseB { result := Except.ok resp, now := ctx.now }
            { st with isFetching := true, loading := true, error := none }).storage
          = saveToCache st.storage (jsOrOpt (getField resp sourcesKey) (Json.arr []))
              ctx.now from rfl,
        saveToCache, if_neg (by rw [hset]; exact Bool.false_ne_true)]

theorem claim6_witness :
    fetchBlogSources false { result := Except.error [Char.ofNat 120], now := 1 }
        (initCompState demoStore)
      = ({ initCompState demoStore with
            sources := Json.arr [Json.num 7],
            loading := false,
            error := none }, 0) ∧
    (fetchBlogSources false { result := Except.ok (Json.obj []), now := CACHE_TTL }
        (initCompState demoStore)).2 = 1 ∧
    (fetchBlogSources false { result := Except.ok (Json.obj []), now := CACHE_TTL }
        (initCompState demoStore)).1.sources
      = jsOrOpt (getField (Json.obj []) sourcesKey) (Json.arr []) ∧
    (fetchBlogSources false { result := Except.ok (Json.obj []), now := CACHE_TTL }
        (initCompState demoStore)).1.lastFetched = some CACHE_TTL ∧
    (fetchBlogSources false { result := Except.ok (Json.obj []), now := CACHE_TTL }
        (initCompState demoStore)).1.storage.contents
      = some (stringify (entryJson (jsOrOpt (getField (Json.obj []) sourcesKey) (Json.arr []))
          CACHE_TTL)) := by
  have hfr := (claim6 [Json.num 7] 0 (initCompState demoStore)
    { result := Except.error [Char.ofNat 120], now := 1 } rfl rfl rfl rfl).1 (by decide)
  have hst := (claim6 [Json.num 7] 0 (initCompState demoStore)
    { result := Except.ok (Json.obj []), now := CACHE_TTL } rfl rfl rfl rfl).2
    (by decide) (Json.obj [])
  exact ⟨hfr, hst.1, hst.2.1, hst.2.2.1, hst.2.2.2 rfl⟩

/-- C9: storage-layer failures during a cache read — a throwing store
or an entry that fails `JSON.parse` — never propagate: the read returns
a miss and a whole `fetchBlogSources` call is observationally identical
to one over an empty working store. -/
theorem claim9 (forceRefresh : Bool) (ctx : NetCtx) (st : CompState)
    (h : st.storage.getThrows = true ∨
      ∃ raw, st.storage.contents = some raw ∧ jsonParse raw = none) :
    (∀ n : Int, loadFromCache st.storage n = none) ∧
    nonStorageView (fetchBlogSources forceRefresh ctx st)
      = nonStorageView (fetchBlogSources forceRefresh ctx
          { st with storage := emptyStorage }) := by
  have hload : ∀ n : Int, loadFromCache st.storage n = none := by
    intro n
    rcases h with h | ⟨raw, hc, hp⟩
    · rw [loadFromCache, if_pos (by rw [h])]
    · rw [loadFromCache]
      by_cases hg : st.storage.getThrows = true
      · rw [if_pos hg]
      · rw [if_neg hg, hc]
        simp [hp]
  have hload2 : ∀ n : Int, loadFromCache emptyStorage n = none := fun _ => rfl
  refine ⟨hload, ?_⟩
  rw [fetchBlogSources, fetchBlogSources]
  have hA : fetchPhaseA forceRefresh ctx.now st
      = if st.isFetching && !forceRefresh then (st, false)
        else ({ st with isFetching := true, loading := true, error := none }, true) := by
    rw [fetchPhaseA]
    by_cases h1 : (st.isFetching && !forceRefresh) = true
    · rw [if_pos h1, if_pos h1]
    · rw [if_neg h1, if_neg h1, if_neg (by simp [hload ctx.now, jsTruthyOpt])]
  have hA2 : fetchPhaseA forceRefresh ctx.now { st with storage := emptyStorage }
      = if st.isFetching && !forceRefresh then ({ st with storage := emptyStorage }, false)
        else ({ st with
                  storage := emptyStorage,
                  isFetching := true,
                  loading := true,
                  error := none }, true) := by
    rw [fetchPhaseA]
    dsimp only
    by_cases h1 : (st.isFetching && !forceRefresh) = true
    · rw [if_pos h1, if_pos h1]
    · rw [if_neg h1, if_neg h1, if_neg (by simp [hload2 ctx.now, jsTruthyOpt])]
  rw [hA, hA2]
  by_cases h1 : (st.isFetching && !forceRefresh) = true
  · rw [if_pos h1, if_pos h1]
    rfl
  · rw [if_neg h1, if_neg h1]
    dsimp only
    cases hres : ctx.result with
    | ok resp =>
      simp only [fetchPhaseB, hres]
      rfl
    | error msg =>
      simp only [fetchPhaseB, hres, hload, hload2]
      rfl

theorem claim9_witness :
    loadFromCache throwingStore 0 = none ∧
    nonStorageView (fetchBlogSources false { result := Except.error [Char.ofNat 120], now := 0 }
        (initCompState throwingStore))
      = nonStorageView (fetchBlogSources false
          { result := Except.error [Char.ofNat 120], now := 0 }
          { initCompState throwingStore with storage := emptyStorage }) := by
  have h := claim9 false { result := Except.error [Char.ofNat 120], now := 0 }
    (initCompState throwingStore) (Or.inl rfl)
  exact ⟨h.1 0, h.2⟩

/-- C10: a successful fetch whose response body has no `sources` field
(or a null one) does not fail: the served list and the newly written
cache entry are both the empty list, exactly one network call is made,
and the error cell stays unset. -/
theorem claim10 (st : CompState) (resp : Json) (now : Int)
    (hs : getField resp sourcesKey = none ∨ getField resp sourcesKey = some Json.null)
    (hissue : (fetchPhaseA false now st).2 = true) :
    (fetchBlogSources false { result := Except.ok resp, now := now } st).2 = 1 ∧
    (fetchBlogSources false { result := Except.ok resp, now := now } st).1.sources
      = Json.arr [] ∧
    (fetchBlogSources false { result := Except.ok resp, now := now } st).1.error = none ∧
    (fetchBlogSources false { result := Except.ok resp, now := now } st).1.lastFetched
      = some now ∧
    (st.storage.setThrows = false →
      (fetchBlogSources false { result := Except.ok resp, now := now } st).1.storage.contents
        = some (stringify (entryJson (Json.arr []) now))) := by
  have hsd : jsOrOpt (getField resp sourcesKey) (Json.arr []) = Json.arr [] := by
    rcases hs with h | h <;> rw [h] <;> rfl
  have h1 := fetchPhaseA_issued false now st hissue
  have hB : fetchBlogSources false { result := Except.ok resp, now := now } st
      = (fetchPhaseB { result := Except.ok resp, now := now }
          { st with isFetching := true, loading := true, error := none }, 1) := by
    rw [fetchBlogSources]
    dsimp only
    rw [hissue, h1]
    simp
  refine ⟨by rw [hB], ?_, by rw [hB]; rfl, by rw [hB]; rfl, ?_⟩
  · rw [hB,
      show (fetchPhaseB { result := Except.ok resp, now := now }
          { st with isFetching := true, loading := true, error := none }, 1).1.sources
        = jsOrOpt (getField resp sourcesKey) (Json.arr []) from rfl, hsd]
  · intro hset
    rw [hB,
      show (fetchPhaseB { result := Except.ok resp, now := now }
          { st with isFetching := true, loading := true, error := none }, 1).1.storage
        = saveToCache st.storage (jsOrOpt (getField resp sourcesKey) (Json.arr [])) now
        from rfl,
      hsd, saveToCache, if_neg (by rw [hset]; exact Bool.false_ne_true)]

theorem claim10_witness :
    (fetchBlogSources false { result := Except.ok (Json.obj []), now := 3 }
        (initCompState emptyStorage)).2 = 1 ∧
    (fetchBlogSources false { result := Except.ok (Json.obj []), now := 3 }
        (initCompState emptyStorage)).1.sources = Json.arr [] ∧
    (fetchBlogSources false { result := Except.ok (Json.obj []), now := 3 }
        (initCompState emptyStorage)).1.error = none ∧
    (fetchBlogSources false { result := Except.ok (Json.obj []), now := 3 }
        (initCompState emptyStorage)).1.lastFetched = some 3 ∧
    (fetchBlogSources false { result := Except.ok (Json.obj []), now := 3 }
        (initCompState emptyStorage)).1.storage.contents
      = some (stringify (entryJson (Json.arr []) 3)) := by
  have h := claim10 (initCompState emptyStorage) (Json.obj []) 3 (Or.inl rfl) (by decide)
  exact ⟨h.1, h.2.1, h.2.2.1, h.2.2.2.1, h.2.2.2.2 rfl⟩

end ZocketCortex
